import Mathlib

/-!
Verification of the Souffle RAM optimization pipeline specification.

The repository exposes the RAM (Relational Algebra Machine) intermediate
representation together with four tree-rewriting passes declared in
RamTransforms.h: HoistConditionsTransformer, MakeIndexTransformer,
IfConversionTransformer and ChoiceConversionTransformer, supported by the
condition-level and expression-level analyses.  The pass implementations
and the IR node classes themselves are not part of the provided sources
(only their declarations and documentation comments are), so the
definitions below are modelled from the specification; each such
definition carries a doc comment saying so.  BinRelationStatement.h is
provided in full and is embedded directly from the source.

Tuple values are integers, relation names are strings, and a database
maps each relation name to its list of tuples (the list order is the
iteration order of a scan).  Machine-width issues play no role in any
claim, so domain values are Int.
-/

namespace SouffleRam

/-- Modelled from the spec: RAM expression nodes (data model in spec section 3),
restricted to the variants the four passes and their analyses inspect:
`Constant(value)` and `TupleElement(level, column)`.  Pattern wildcards
(`UndefValue`) are represented by `Option Expression` with `none` as the
wildcard, following the spec's description of a pattern as a list of
optional expressions. -/
inductive Expression where
  | constant : Int → Expression
  | tupleElement : Nat → Nat → Expression
deriving DecidableEq, Repr

/-- Modelled from the spec: comparison operators of a `Constraint` condition. -/
inductive CmpOp where
  | EQ | NE | LT | LE | GT | GE
deriving DecidableEq, Repr

/-- A query pattern: one optional expression per attribute, `none` meaning
the attribute is unconstrained (`UndefValue`). -/
abbrev Pattern := List (Option Expression)

/-- Modelled from the spec: RAM condition nodes: conjunction, negation,
constraints between two expressions, and the relation probes
`ExistenceCheck(rel, pattern)` and `EmptinessCheck(rel)`. -/
inductive Condition where
  | conjunction : Condition → Condition → Condition
  | negation : Condition → Condition
  | constraint : CmpOp → Expression → Expression → Condition
  | existenceCheck : String → Pattern → Condition
  | emptinessCheck : String → Condition
deriving DecidableEq, Repr

/-- Modelled from the spec: RAM operation nodes forming the body of a query.
Each operation owns exactly one child operation (`Project` is the leaf),
so a query body is a chain.  `Scan`, `IndexScan`, `Choice` and
`IndexChoice` bind the tuple at the given nesting level. -/
inductive Operation where
  | scan : String → Nat → Operation → Operation
  | indexScan : String → Nat → Pattern → Operation → Operation
  | choice : String → Nat → Condition → Operation → Operation
  | indexChoice : String → Nat → Pattern → Condition → Operation → Operation
  | filter : Condition → Operation → Operation
  | breakOp : Condition → Operation → Operation
  | project : String → List Expression → Operation
deriving DecidableEq, Repr

/-- A RAM program, reduced to the list of its query bodies: the statement
layer (sequence, loop, exit) only determines how often each query runs and
plays no role in any pass, which rewrites each query body independently. -/
abbrev Program := List Operation

/-! ## Level analyses (RamExpressionLevelAnalysis / RamConditionLevelAnalysis) -/

/-- Modelled from the spec: the expression-level analysis `L`:
`L(Constant) = -1`, `L(TupleElement(l, _)) = l`. -/
def exprLevel : Expression → Int
  | .constant _ => -1
  | .tupleElement l _ => (l : Int)

/-- Level of an optional pattern entry: a free slot contributes `-1`. -/
def optLevel : Option Expression → Int
  | none => -1
  | some e => exprLevel e

/-- Level of a pattern: the maximum level of its expressions, `-1` when the
argument list is empty. -/
def patLevel : Pattern → Int
  | [] => -1
  | oe :: rest => max (optLevel oe) (patLevel rest)

/-- Modelled from the spec: the condition-level analysis `L`:
the minimum nesting depth at which a condition can be evaluated. -/
def condLevel : Condition → Int
  | .conjunction a b => max (condLevel a) (condLevel b)
  | .negation c => condLevel c
  | .constraint _ a b => max (exprLevel a) (exprLevel b)
  | .existenceCheck _ pat => patLevel pat
  | .emptinessCheck _ => -1

/-! ## Syntactic occurrence of a tuple level -/

/-- Does `TupleElement(k, _)` occur in the expression? -/
def exprUses (k : Nat) : Expression → Bool
  | .constant _ => false
  | .tupleElement l _ => l == k

/-- Does `TupleElement(k, _)` occur in the pattern entry? -/
def optUses (k : Nat) : Option Expression → Bool
  | none => false
  | some e => exprUses k e

/-- Does `TupleElement(k, _)` occur in the pattern? -/
def patUses (k : Nat) (pat : Pattern) : Bool :=
  pat.any (optUses k)

/-- Does `TupleElement(k, _)` occur in the condition? -/
def condUses (k : Nat) : Condition → Bool
  | .conjunction a b => condUses k a || condUses k b
  | .negation c => condUses k c
  | .constraint _ a b => exprUses k a || exprUses k b
  | .existenceCheck _ pat => patUses k pat
  | .emptinessCheck _ => false

/-- Does `TupleElement(k, _)` occur anywhere in the operation subtree?
This is the liveness scan used by the if-conversion pass. -/
def opUses (k : Nat) : Operation → Bool
  | .scan _ _ b => opUses k b
  | .indexScan _ _ pat b => patUses k pat || opUses k b
  | .choice _ _ c b => condUses k c || opUses k b
  | .indexChoice _ _ pat c b => patUses k pat || condUses k c || opUses k b
  | .filter c b => condUses k c || opUses k b
  | .breakOp c b => condUses k c || opUses k b
  | .project _ args => args.any (exprUses k)

/-- Does a `Break` operation occur in the subtree? -/
def hasBreakOp : Operation → Bool
  | .scan _ _ b => hasBreakOp b
  | .indexScan _ _ _ b => hasBreakOp b
  | .choice _ _ _ b => hasBreakOp b
  | .indexChoice _ _ _ _ b => hasBreakOp b
  | .filter _ b => hasBreakOp b
  | .breakOp _ _ => true
  | .project _ _ => false

/-! ## Well-formedness (spec section 3 invariants)

`bound` is the list of tuple levels introduced by the enclosing binding
operations, innermost first.  Well-formedness demands the level
discipline (every `TupleElement(l, _)` has `l` bound by an enclosing
binder), strictly increasing levels from outer to inner, and the pattern
arity invariant for index operations. -/

/-- Level discipline for an expression: its tuple references are bound. -/
def wfExpr (bound : List Nat) : Expression → Bool
  | .constant _ => true
  | .tupleElement l _ => bound.contains l

/-- Level discipline for a pattern entry. -/
def wfOpt (bound : List Nat) : Option Expression → Bool
  | none => true
  | some e => wfExpr bound e

/-- Level discipline for a condition. -/
def wfCond (bound : List Nat) : Condition → Bool
  | .conjunction a b => wfCond bound a && wfCond bound b
  | .negation c => wfCond bound c
  | .constraint _ a b => wfExpr bound a && wfExpr bound b
  | .existenceCheck _ pat => pat.all (wfOpt bound)
  | .emptinessCheck _ => true

/-- Well-formedness of an operation under the bound levels, for the arity
assignment `ar`: binders introduce a level strictly larger than all
enclosing ones, index patterns have length `ar r` and are evaluable
before their own binding, and all conditions and expressions respect the
level discipline. -/
def wfOp (ar : String → Nat) (bound : List Nat) : Operation → Bool
  | .scan _ l b => bound.all (fun k => k < l) && wfOp ar (l :: bound) b
  | .indexScan r l pat b =>
      bound.all (fun k => k < l) && (pat.length == ar r) &&
      pat.all (wfOpt bound) && wfOp ar (l :: bound) b
  | .choice _ l c b =>
      bound.all (fun k => k < l) && wfCond (l :: bound) c && wfOp ar (l :: bound) b
  | .indexChoice r l pat c b =>
      bound.all (fun k => k < l) && (pat.length == ar r) &&
      pat.all (wfOpt bound) && wfCond (l :: bound) c && wfOp ar (l :: bound) b
  | .filter c b => wfCond bound c && wfOp ar bound b
  | .breakOp c b => wfCond bound c && wfOp ar bound b
  | .project _ args => args.all (wfExpr bound)

/-! ## HoistConditionsTransformer -/

/-- Wrap a body in one `Filter` per condition, outermost condition first. -/
def insertFilters (cs : List Condition) (b : Operation) : Operation :=
  cs.foldr Operation.filter b

/-- Modelled from the spec: the worker of
`HoistConditionsTransformer::hoistConditions`.  Walking bottom-up it
strips every `Filter` and returns the stripped conditions in pre-order
(outermost first) together with the remaining operation; a binder at
level `l` re-installs, directly inside itself and in stable pre-order,
exactly the stripped conditions whose level equals `l`; a `Break` is a
barrier: nothing is hoisted past it, all conditions still pending are
re-installed directly inside it. -/
def hoistGo : Operation → List Condition × Operation
  | .filter c b => (c :: (hoistGo b).1, (hoistGo b).2)
  | .scan r l b =>
      ((hoistGo b).1.filter (fun c => !(condLevel c == (l : Int))),
       .scan r l (insertFilters ((hoistGo b).1.filter (fun c => condLevel c == (l : Int))) (hoistGo b).2))
  | .indexScan r l pat b =>
      ((hoistGo b).1.filter (fun c => !(condLevel c == (l : Int))),
       .indexScan r l pat (insertFilters ((hoistGo b).1.filter (fun c => condLevel c == (l : Int))) (hoistGo b).2))
  | .choice r l c b =>
      ((hoistGo b).1.filter (fun c => !(condLevel c == (l : Int))),
       .choice r l c (insertFilters ((hoistGo b).1.filter (fun c => condLevel c == (l : Int))) (hoistGo b).2))
  | .indexChoice r l pat c b =>
      ((hoistGo b).1.filter (fun c => !(condLevel c == (l : Int))),
       .indexChoice r l pat c (insertFilters ((hoistGo b).1.filter (fun c => condLevel c == (l : Int))) (hoistGo b).2))
  | .breakOp c b =>
      ([], .breakOp c (insertFilters (hoistGo b).1 (hoistGo b).2))
  | .project r args => ([], .project r args)

/-- Modelled from the spec: `HoistConditionsTransformer::hoistConditions`
on a single query body: every filter moves to the outermost position
where its condition level is still available; conditions of level `-1`
wrap the entire query body. -/
def hoistConditions (op : Operation) : Operation :=
  insertFilters (hoistGo op).1 (hoistGo op).2

/-! ## MakeIndexTransformer -/

/-- If the expression is `TupleElement(l, k)`, return `k`. -/
def asTupleElement (e : Expression) (l : Nat) : Option Nat :=
  match e with
  | .tupleElement l' k => if l' = l then some k else none
  | .constant _ => none

/-- Modelled from the spec: `MakeIndexTransformer::getExpression`.
For an equality constraint with exactly one side `TupleElement(l, k)`
and an other side `e` with `L(e) < l`, return the attribute position `k`
and the expression `e`; otherwise `none`. -/
def getExpression (c : Condition) (l : Nat) : Option (Nat × Expression) :=
  match c with
  | .constraint .EQ a b =>
      match asTupleElement a l with
      | some k => if exprLevel b < (l : Int) then some (k, b) else none
      | none =>
          match asTupleElement b l with
          | some k => if exprLevel a < (l : Int) then some (k, a) else none
          | none => none
  | _ => none

/-- Modelled from the spec: `MakeIndexTransformer::constructPattern`.
Processes the conditions in source order: an index-eligible equality
whose target slot is still free fills that slot and sets the indexable
flag; every other condition (ineligible, out of range, or a later
equality on an already-filled slot) is kept as a residual, in the
original relative order. -/
def constructPattern (l : Nat) (pat : Pattern) :
    List Condition → Pattern × List Condition × Bool
  | [] => (pat, [], false)
  | c :: cs =>
      match getExpression c l with
      | some ke =>
          if ke.1 < pat.length ∧ pat.getD ke.1 none = none then
            ((constructPattern l (pat.set ke.1 (some ke.2)) cs).1,
             (constructPattern l (pat.set ke.1 (some ke.2)) cs).2.1, true)
          else
            ((constructPattern l pat cs).1,
             c :: (constructPattern l pat cs).2.1,
             (constructPattern l pat cs).2.2)
      | none =>
          ((constructPattern l pat cs).1,
           c :: (constructPattern l pat cs).2.1,
           (constructPattern l pat cs).2.2)

/-- Strip the maximal prefix of `Filter` wrappers from an operation,
returning their conditions in order and the first non-filter operation. -/
def peelFilters : Operation → List Condition × Operation
  | .filter c b => (c :: (peelFilters b).1, (peelFilters b).2)
  | .scan r l b => ([], .scan r l b)
  | .indexScan r l pat b => ([], .indexScan r l pat b)
  | .choice r l c b => ([], .choice r l c b)
  | .indexChoice r l pat c b => ([], .indexChoice r l pat c b)
  | .breakOp c b => ([], .breakOp c b)
  | .project r args => ([], .project r args)

/-- Modelled from the spec: `MakeIndexTransformer::makeIndex` (with
`rewriteScan`) on a single query body, processing the tree bottom-up.
At a `Scan(R, l, body)` the filters immediately inside `body` are split
by `constructPattern` into an index pattern and residual conditions; if
any slot was filled the scan becomes an `IndexScan` on the pattern with
the residual filters re-installed, in order, directly inside it. -/
def makeIndex (ar : String → Nat) : Operation → Operation
  | .scan r l body =>
      let b := makeIndex ar body
      if ((constructPattern l (List.replicate (ar r) none) (peelFilters b).1).2.2 : Bool) then
        .indexScan r l
          (constructPattern l (List.replicate (ar r) none) (peelFilters b).1).1
          (insertFilters (constructPattern l (List.replicate (ar r) none) (peelFilters b).1).2.1
            (peelFilters b).2)
      else
        .scan r l b
  | .indexScan r l pat body => .indexScan r l pat (makeIndex ar body)
  | .choice r l c body => .choice r l c (makeIndex ar body)
  | .indexChoice r l pat c body => .indexChoice r l pat c (makeIndex ar body)
  | .filter c body => .filter c (makeIndex ar body)
  | .breakOp c body => .breakOp c (makeIndex ar body)
  | .project r args => .project r args

/-! ## IfConversionTransformer -/

/-- Modelled from the spec: `IfConversionTransformer::convertIndexScans`
(with `rewriteIndexScan`) on a single query body, bottom-up: an
`IndexScan(R, l, pattern, body)` whose tuple `l` is referenced nowhere
in `body` becomes `Filter(ExistenceCheck(R, pattern), body)`. -/
def convertIndexScans : Operation → Operation
  | .indexScan r l pat body =>
      if opUses l (convertIndexScans body) then
        .indexScan r l pat (convertIndexScans body)
      else
        .filter (.existenceCheck r pat) (convertIndexScans body)
  | .scan r l body => .scan r l (convertIndexScans body)
  | .choice r l c body => .choice r l c (convertIndexScans body)
  | .indexChoice r l pat c body => .indexChoice r l pat c (convertIndexScans body)
  | .filter c body => .filter c (convertIndexScans body)
  | .breakOp c body => .breakOp c (convertIndexScans body)
  | .project r args => .project r args

/-! ## ChoiceConversionTransformer -/

/-- Modelled from the spec: `ChoiceConversionTransformer::convertScans`
(with `rewriteScan` / `rewriteIndexScan`): `Scan(R, l, Filter(c, body))`
becomes `Choice(R, l, c, body)` when `body` contains no `Break` and the
condition-level analysis confirms `c` depends on level `l`; likewise an
`IndexScan` with a filter directly inside becomes an `IndexChoice`.
Applied recursively. -/
def convertScans : Operation → Operation
  | .scan r l (.filter c b) =>
      if !hasBreakOp b && (condLevel c == (l : Int)) then
        .choice r l c (convertScans b)
      else
        .scan r l (.filter c (convertScans b))
  | .indexScan r l pat (.filter c b) =>
      if !hasBreakOp b && (condLevel c == (l : Int)) then
        .indexChoice r l pat c (convertScans b)
      else
        .indexScan r l pat (.filter c (convertScans b))
  | .scan r l body => .scan r l (convertScans body)
  | .indexScan r l pat body => .indexScan r l pat (convertScans body)
  | .choice r l c body => .choice r l c (convertScans body)
  | .indexChoice r l pat c body => .indexChoice r l pat c (convertScans body)
  | .filter c body => .filter c (convertScans body)
  | .breakOp c body => .breakOp c (convertScans body)
  | .project r args => .project r args

/-! ## Evaluation semantics

Modelled from the spec: the reference semantics that the differential
tests compare against.  A database maps each relation name to the list
of its tuples; evaluating a query body yields the set of tuples projected
into relations, plus a flag telling the innermost enclosing scan-loop
whether a `Break` fired. -/

/-- A tuple of domain values. -/
abbrev Tuple := List Int

/-- A database: each relation name maps to its tuples in iteration order. -/
abbrev Db := String → List Tuple

/-- A projected fact: relation name and inserted tuple. -/
abbrev Fact := String × Tuple

/-- An environment assigning to each tuple level its bound tuple. -/
abbrev Env := Nat → Tuple

/-- Rebind level `l` to tuple `t`. -/
def updEnv (env : Env) (l : Nat) (t : Tuple) : Env :=
  fun k => if k = l then t else env k

/-- Evaluate an expression: `TupleElement(l, k)` reads attribute `k` of the
tuple bound at level `l` (0 when out of range). -/
def evalExpr (env : Env) : Expression → Int
  | .constant v => v
  | .tupleElement l k => (env l).getD k 0

/-- Evaluate a comparison operator. -/
def evalCmp : CmpOp → Int → Int → Bool
  | .EQ, a, b => a == b
  | .NE, a, b => !(a == b)
  | .LT, a, b => decide (a < b)
  | .LE, a, b => decide (a ≤ b)
  | .GT, a, b => decide (b < a)
  | .GE, a, b => decide (b ≤ a)

/-- Does tuple `t` match the pattern?  Free slots (`none`) always match;
a slot holding `e` matches when `e` evaluates to the attribute value. -/
def matchTuple (env : Env) : Pattern → Tuple → Bool
  | [], _ => true
  | none :: pat, t => matchTuple env pat t.tail
  | some e :: pat, t => (evalExpr env e == t.headD 0) && matchTuple env pat t.tail

/-- Evaluate a condition. -/
def evalCond (db : Db) (env : Env) : Condition → Bool
  | .conjunction a b => evalCond db env a && evalCond db env b
  | .negation c => !evalCond db env c
  | .constraint op a b => evalCmp op (evalExpr env a) (evalExpr env b)
  | .existenceCheck r pat => (db r).any (fun t => matchTuple env pat t)
  | .emptinessCheck r => (db r).isEmpty

/-- Run the body of a scan over the given tuples in order, accumulating the
projected facts and stopping as soon as an iteration signals a break. -/
def scanRows (f : Tuple → Finset Fact × Bool) : List Tuple → Finset Fact
  | [] => ∅
  | t :: ts => if (f t).2 then (f t).1 else (f t).1 ∪ scanRows f ts

/-- Evaluate an operation: the set of projected facts together with the
break flag reported to the innermost enclosing scan-loop.  A scan-like
operation consumes the flag of its body; `Choice`/`IndexChoice` evaluate
their body for the first matching tuple only. -/
def evalOp (db : Db) : Env → Operation → Finset Fact × Bool
  | env, .scan r l body =>
      (scanRows (fun t => evalOp db (updEnv env l t) body) (db r), false)
  | env, .indexScan r l pat body =>
      (scanRows (fun t => evalOp db (updEnv env l t) body)
        ((db r).filter (fun t => matchTuple env pat t)), false)
  | env, .choice r l c body =>
      match (db r).find? (fun t => evalCond db (updEnv env l t) c) with
      | some t => ((evalOp db (updEnv env l t) body).1, false)
      | none => (∅, false)
  | env, .indexChoice r l pat c body =>
      match (db r).find? (fun t => matchTuple env pat t && evalCond db (updEnv env l t) c) with
      | some t => ((evalOp db (updEnv env l t) body).1, false)
      | none => (∅, false)
  | env, .filter c body =>
      if evalCond db env c then evalOp db env body else (∅, false)
  | env, .breakOp c body =>
      if evalCond db env c then (∅, true) else evalOp db env body
  | env, .project r args => ({(r, args.map (evalExpr env))}, false)

/-- The relation contents produced by a program: the union of the facts
projected by its queries, each evaluated in the empty environment. -/
def evalProgram (db : Db) (P : Program) : Finset Fact :=
  P.foldr (fun q acc => (evalOp db (fun _ => []) q).1 ∪ acc) ∅

/-- The first three passes in pipeline order:
HoistConditions, then MakeIndex, then IfConversion. -/
def pipelineThree (ar : String → Nat) (P : Program) : Program :=
  P.map (fun q => convertIndexScans (makeIndex ar (hoistConditions q)))

/-- The full pass sequence of the spec: HoistConditions, MakeIndex,
IfConversion, ChoiceConversion. -/
def pipelineFour (ar : String → Nat) (P : Program) : Program :=
  P.map (fun q => convertScans (convertIndexScans (makeIndex ar (hoistConditions q))))

/-! ## BinRelationStatement (embedded from src/src/ram/BinRelationStatement.h) -/

/-- Embedded from the source: a `BinRelationStatement` names two relations;
`extra` stands in for any further state a node may carry (base-class
bookkeeping or subclass fields), which the source's `equal` never
consults. -/
structure BinRelationStatement (α : Type) where
  first : String
  second : String
  extra : α

/-- Embedded from the source: `getFirstRelation` returns the first name. -/
def BinRelationStatement.getFirstRelation (s : BinRelationStatement α) : String :=
  s.first

/-- Embedded from the source: `getSecondRelation` returns the second name. -/
def BinRelationStatement.getSecondRelation (s : BinRelationStatement α) : String :=
  s.second

/-- Embedded from the source: `BinRelationStatement::equal` compares the two
relation names and nothing else. -/
def BinRelationStatement.equal (a b : BinRelationStatement α) : Bool :=
  a.first == b.first && a.second == b.second

/-! ## Multiset of filter conditions -/

/-- The multiset of conditions carried by the `Filter` nodes of an
operation (conditions of `Break`, `Choice` and probes do not count). -/
def filterConds : Operation → Multiset Condition
  | .scan _ _ b => filterConds b
  | .indexScan _ _ _ b => filterConds b
  | .choice _ _ _ b => filterConds b
  | .indexChoice _ _ _ _ b => filterConds b
  | .filter c b => c ::ₘ filterConds b
  | .breakOp _ b => filterConds b
  | .project _ _ => 0

/-! ## Derived checkers, auxiliary definitions and example programs -/

/-- Every `IndexScan` in the operation has a live binding: some
`TupleElement(l, _)` with its own level occurs in its body. -/
def liveIndexScans : Operation → Bool
  | .scan _ _ b => liveIndexScans b
  | .indexScan _ l _ b => opUses l b && liveIndexScans b
  | .choice _ _ _ b => liveIndexScans b
  | .indexChoice _ _ _ _ b => liveIndexScans b
  | .filter _ b => liveIndexScans b
  | .breakOp _ b => liveIndexScans b
  | .project _ _ => true

/-- Is the operation a `Filter` node? -/
def isFilter : Operation → Bool
  | .filter _ _ => true
  | .scan _ _ _ => false
  | .indexScan _ _ _ _ => false
  | .choice _ _ _ _ => false
  | .indexChoice _ _ _ _ _ => false
  | .breakOp _ _ => false
  | .project _ _ => false

/-- Would a scan-like binder at level `l` with this body be rewritten by
choice conversion?  Exactly when the body is a filter whose inner body is
break-free and whose condition depends on level `l`. -/
def convertibleBody (l : Nat) : Operation → Bool
  | .filter c b => !hasBreakOp b && (condLevel c == (l : Int))
  | _ => false

/-- No scan or index-scan in the operation still satisfies the choice
conversion preconditions. -/
def noConvertible : Operation → Bool
  | .scan _ l body => !convertibleBody l body && noConvertible body
  | .indexScan _ l _ body => !convertibleBody l body && noConvertible body
  | .choice _ _ _ b => noConvertible b
  | .indexChoice _ _ _ _ b => noConvertible b
  | .filter _ b => noConvertible b
  | .breakOp _ b => noConvertible b
  | .project _ _ => true

/-- Depth-checked level soundness: every `Filter` condition has level at
most the depth at which the filter sits, where the depth of a position is
the level of the innermost enclosing binder (`-1` at the query root). -/
def levelSoundB (d : Int) : Operation → Bool
  | .filter c b => decide (condLevel c ≤ d) && levelSoundB d b
  | .scan _ l b => levelSoundB (l : Int) b
  | .indexScan _ l _ b => levelSoundB (l : Int) b
  | .choice _ l _ b => levelSoundB (l : Int) b
  | .indexChoice _ l _ _ b => levelSoundB (l : Int) b
  | .breakOp _ b => levelSoundB d b
  | .project _ _ => true

/-- A concrete two-scan query used by the witnesses: it is well formed for
arity 1 relations and break-free. -/
def exQuery : Operation :=
  .scan "A" 0 (.scan "B" 1
    (.filter (.constraint .EQ (.constant 0) (.constant 0))
      (.filter (.constraint .EQ (.tupleElement 0 0) (.constant 5))
        (.filter (.constraint .GE (.tupleElement 1 0) (.tupleElement 0 0))
          (.project "C" [.tupleElement 1 0])))))

/-- The arity assignment of the witness programs: all relations unary. -/
def exArity : String → Nat := fun _ => 1

/-- A pattern slot is acceptable for a binder at level `l`: free, or an
expression whose level is strictly below `l`. -/
def patSlotOk (l : Nat) : Option Expression → Bool
  | none => true
  | some e => decide (exprLevel e < (l : Int))

/-- Every `IndexScan(R, l, pat, _)` in the operation has `|pat| = ar R` and
only slots acceptable at `l`. -/
def patternsOk (ar : String → Nat) : Operation → Bool
  | .indexScan r l pat b => (pat.length == ar r) && pat.all (patSlotOk l) && patternsOk ar b
  | .scan _ _ b => patternsOk ar b
  | .choice _ _ _ b => patternsOk ar b
  | .indexChoice _ _ _ _ b => patternsOk ar b
  | .filter _ b => patternsOk ar b
  | .breakOp _ b => patternsOk ar b
  | .project _ _ => true

/-- The first index-eligible equality for slot `k`, in source order. -/
def firstEligible (l : Nat) (conds : List Condition) (k : Nat) : Option Expression :=
  conds.findSome? (fun c =>
    match getExpression c l with
    | some ke => if ke.1 = k then some ke.2 else none
    | none => none)

/-- Number of filled slots of a pattern. -/
def filledCount (pat : Pattern) : Nat :=
  pat.countP (fun oe => oe.isSome)

/-- The counterexample program for the choice-conversion step: a scan whose
filter keeps every tuple; converting it to a choice collapses the result
to a single tuple. -/
def cexChoiceProgram : Program :=
  [.scan "A" 0 (.filter (.constraint .GE (.tupleElement 0 0) (.constant 0))
    (.project "B" [.tupleElement 0 0]))]

/-- Database for the choice-conversion counterexample. -/
def cexChoiceDb : Db := fun r => if r = "A" then [[1], [2]] else []

/-- The counterexample program for if-conversion in the presence of
`Break`: the rewritten existence check propagates the break past its own
loop and kills a later iteration of the outer scan. -/
def cexBreakProgram : Program :=
  [.scan "A" 0 (.indexScan "B" 1 [none]
    (.breakOp (.constraint .EQ (.tupleElement 0 0) (.constant 5))
      (.project "C" [.tupleElement 0 0])))]

/-- Database for the break counterexample. -/
def cexBreakDb : Db := fun r => if r = "A" then [[5], [7]] else if r = "B" then [[1]] else []

/-! ## Basic list helpers -/

theorem filter_filter_self (q : α → Bool) (xs : List α) :
    (xs.filter q).filter q = xs.filter q := by
  induction xs with
  | nil => rfl
  | cons x xs ih =>
      by_cases h : q x = true
      · simp [List.filter_cons, h, ih]
      · simp only [Bool.not_eq_true] at h
        simp [List.filter_cons, h, ih]

theorem filter_filter_not (q : α → Bool) (xs : List α) :
    (xs.filter q).filter (fun a => !q a) = [] := by
  induction xs with
  | nil => rfl
  | cons x xs ih =>
      by_cases h : q x = true
      · simp [List.filter_cons, h, ih]
      · simp only [Bool.not_eq_true] at h
        simp [List.filter_cons, h, ih]

/-! ## Structure of the hoist pass -/

theorem hoistGo_insertFilters (cs : List Condition) (b : Operation) :
    hoistGo (insertFilters cs b) = (cs ++ (hoistGo b).1, (hoistGo b).2) := by
  induction cs with
  | nil => simp [insertFilters]
  | cons c cs ih =>
      show hoistGo (.filter c (insertFilters cs b)) = _
      simp [hoistGo, ih]

theorem filterConds_insertFilters (cs : List Condition) (b : Operation) :
    filterConds (insertFilters cs b) = (cs : Multiset Condition) + filterConds b := by
  induction cs with
  | nil => simp [insertFilters]
  | cons c cs ih =>
      show filterConds (.filter c (insertFilters cs b)) = _
      simp only [filterConds, ih, ← Multiset.cons_coe, Multiset.cons_add]

/-- Splitting a list by a Boolean predicate partitions its multiset. -/
theorem filter_partition_coe (q : α → Bool) (p : List α) :
    (p.filter (fun a => !q a) : Multiset α) + (p.filter q : Multiset α) = (p : Multiset α) := by
  rw [add_comm, Multiset.coe_add]
  exact Multiset.coe_eq_coe.mpr (List.filter_append_perm q p)

/-- Re-running the hoist worker on its own stripped result finds nothing to
strip and changes nothing. -/
theorem hoistGo_idem : ∀ op : Operation, hoistGo (hoistGo op).2 = ([], (hoistGo op).2)
  | .filter c b => by
      simpa [hoistGo] using hoistGo_idem b
  | .scan r l b => by
      simp only [hoistGo, hoistGo_insertFilters, hoistGo_idem b, List.append_nil,
        filter_filter_self, filter_filter_not]
  | .indexScan r l pat b => by
      simp only [hoistGo, hoistGo_insertFilters, hoistGo_idem b, List.append_nil,
        filter_filter_self, filter_filter_not]
  | .choice r l c b => by
      simp only [hoistGo, hoistGo_insertFilters, hoistGo_idem b, List.append_nil,
        filter_filter_self, filter_filter_not]
  | .indexChoice r l pat c b => by
      simp only [hoistGo, hoistGo_insertFilters, hoistGo_idem b, List.append_nil,
        filter_filter_self, filter_filter_not]
  | .breakOp c b => by
      simp only [hoistGo, hoistGo_insertFilters, hoistGo_idem b, List.append_nil]
  | .project r args => by
      simp [hoistGo]

/-- The hoist worker preserves the multiset of filter conditions: stripped
conditions plus the conditions re-installed in the core account exactly
for the original filters. -/
theorem hoistGo_conds : ∀ op : Operation,
    ((hoistGo op).1 : Multiset Condition) + filterConds (hoistGo op).2 = filterConds op
  | .filter c b => by
      have ih := hoistGo_conds b
      simp only [hoistGo, filterConds, ← Multiset.cons_coe, Multiset.cons_add]
      rw [ih]
  | .scan r l b => by
      simp only [hoistGo, filterConds, filterConds_insertFilters]
      rw [← add_assoc, filter_partition_coe, hoistGo_conds b]
  | .indexScan r l pat b => by
      simp only [hoistGo, filterConds, filterConds_insertFilters]
      rw [← add_assoc, filter_partition_coe, hoistGo_conds b]
  | .choice r l c b => by
      simp only [hoistGo, filterConds, filterConds_insertFilters]
      rw [← add_assoc, filter_partition_coe, hoistGo_conds b]
  | .indexChoice r l pat c b => by
      simp only [hoistGo, filterConds, filterConds_insertFilters]
      rw [← add_assoc, filter_partition_coe, hoistGo_conds b]
  | .breakOp c b => by
      simp only [hoistGo, filterConds, filterConds_insertFilters]
      rw [hoistGo_conds b]
      simp
  | .project r args => by
      simp [hoistGo, filterConds]

/-- The pattern level is the maximum of the levels of the pattern's
expressions, starting from `-1`. -/
theorem patLevel_eq_foldr (pat : Pattern) :
    patLevel pat = (pat.map optLevel).foldr max (-1) := by
  induction pat with
  | nil => rfl
  | cons oe pat ih => simp [patLevel, ih]

/-- `equal` on `BinRelationStatement` holds exactly when the two relation
names agree. -/
theorem BinRelationStatement.equal_iff (a b : BinRelationStatement α) :
    BinRelationStatement.equal a b = true ↔ a.first = b.first ∧ a.second = b.second := by
  simp [BinRelationStatement.equal]

/-! ## Claim theorems (part 1) -/

/-- C7: the condition-level analysis satisfies the spec's equations:
`L(Constraint(op, e1, e2)) = max(L(e1), L(e2))`,
`L(Conjunction(a, b)) = max(L(a), L(b))`, `L(Negation(c)) = L(c)`,
`L(ExistenceCheck(rel, pattern))` is the maximum of `L` over the
pattern's expressions, `L(Constant) = -1`, `L(TupleElement(l, _)) = l`,
and an empty argument list yields `-1`. -/
theorem condLevel_satisfies_spec_equations :
    (∀ op e1 e2, condLevel (.constraint op e1 e2) = max (exprLevel e1) (exprLevel e2)) ∧
    (∀ a b, condLevel (.conjunction a b) = max (condLevel a) (condLevel b)) ∧
    (∀ c, condLevel (.negation c) = condLevel c) ∧
    (∀ r pat, condLevel (.existenceCheck r pat) = (pat.map optLevel).foldr max (-1)) ∧
    (∀ v, exprLevel (.constant v) = -1) ∧
    (∀ l k, exprLevel (.tupleElement l k) = (l : Int)) ∧
    (∀ r, condLevel (.existenceCheck r []) = -1) := by
  refine ⟨fun _ _ _ => rfl, fun _ _ => rfl, fun _ => rfl, fun r pat => ?_,
    fun _ => rfl, fun _ _ => rfl, fun _ => rfl⟩
  exact patLevel_eq_foldr pat

/-- C8: the hoist pass is idempotent: applying it twice yields a program
structurally equal to applying it once. -/
theorem hoistConditions_idempotent (op : Operation) :
    hoistConditions (hoistConditions op) = hoistConditions op := by
  unfold hoistConditions
  rw [hoistGo_insertFilters, hoistGo_idem op]
  simp

/-- C4: the hoist pass preserves the multiset of `Filter` conditions:
conditions are relocated, never duplicated, eliminated, or altered. -/
theorem hoistConditions_preserves_filter_conditions (op : Operation) :
    filterConds (hoistConditions op) = filterConds op := by
  unfold hoistConditions
  rw [filterConds_insertFilters, hoistGo_conds]

/-- C10: structural equality of `BinRelationStatement` depends only on the
two relation names: it holds iff `getFirstRelation` and
`getSecondRelation` agree, it is reflexive, symmetric and transitive, and
it is unaffected by any other state of the nodes. -/
theorem binRelationStatement_equal_characterization :
    (∀ (α : Type) (a b : BinRelationStatement α),
       BinRelationStatement.equal a b = true ↔
         a.getFirstRelation = b.getFirstRelation ∧
         a.getSecondRelation = b.getSecondRelation) ∧
    (∀ (α : Type) (a : BinRelationStatement α), BinRelationStatement.equal a a = true) ∧
    (∀ (α : Type) (a b : BinRelationStatement α),
       BinRelationStatement.equal a b = BinRelationStatement.equal b a) ∧
    (∀ (α : Type) (a b c : BinRelationStatement α),
       BinRelationStatement.equal a b = true → BinRelationStatement.equal b c = true →
       BinRelationStatement.equal a c = true) ∧
    (∀ (α : Type) (f s f' s' : String) (x x' y y' : α),
       BinRelationStatement.equal ⟨f, s, x⟩ ⟨f', s', x'⟩ =
       BinRelationStatement.equal ⟨f, s, y⟩ ⟨f', s', y'⟩) := by
  refine ⟨fun α a b => BinRelationStatement.equal_iff a b, ?_, ?_, ?_, ?_⟩
  · intro α a
    simp [BinRelationStatement.equal]
  · intro α a b
    rw [Bool.eq_iff_iff, BinRelationStatement.equal_iff, BinRelationStatement.equal_iff]
    constructor
    · rintro ⟨h1, h2⟩
      exact ⟨h1.symm, h2.symm⟩
    · rintro ⟨h1, h2⟩
      exact ⟨h1.symm, h2.symm⟩
  · intro α a b c hab hbc
    rw [BinRelationStatement.equal_iff] at hab hbc ⊢
    exact ⟨hab.1.trans hbc.1, hab.2.trans hbc.2⟩
  · intro α f s f' s' x x' y y'
    simp [BinRelationStatement.equal]

/-- Witness for C10: the transitivity component applied at concrete nodes
whose extra state differs. -/
theorem binRelationStatement_equal_characterization_witness :
    BinRelationStatement.equal ⟨"A", "B", (0 : Nat)⟩ ⟨"A", "B", (2 : Nat)⟩ = true :=
  binRelationStatement_equal_characterization.2.2.2.1 Nat
    ⟨"A", "B", 0⟩ ⟨"A", "B", 1⟩ ⟨"A", "B", 2⟩ (by decide) (by decide)

/-! ## IfConversion: liveness soundness (claim C5) -/


/-- If-conversion does not add or remove tuple-element occurrences: a
rewritten index-scan carries its pattern into the existence check. -/
theorem opUses_convertIndexScans (k : Nat) :
    ∀ op : Operation, opUses k (convertIndexScans op) = opUses k op
  | .scan r l b => by
      simp [convertIndexScans, opUses, opUses_convertIndexScans k b]
  | .indexScan r l pat b => by
      by_cases h : opUses l (convertIndexScans b) = true
      · simp [convertIndexScans, h, opUses, opUses_convertIndexScans k b]
      · simp only [Bool.not_eq_true] at h
        simp [convertIndexScans, h, opUses, condUses, opUses_convertIndexScans k b]
  | .choice r l c b => by
      simp [convertIndexScans, opUses, opUses_convertIndexScans k b]
  | .indexChoice r l pat c b => by
      simp [convertIndexScans, opUses, opUses_convertIndexScans k b]
  | .filter c b => by
      simp [convertIndexScans, opUses, opUses_convertIndexScans k b]
  | .breakOp c b => by
      simp [convertIndexScans, opUses, opUses_convertIndexScans k b]
  | .project r args => rfl

/-- C5: if-conversion rewrites exactly the dead index-scans: an
`IndexScan(R, l, pattern, body)` becomes
`Filter(ExistenceCheck(R, pattern), body)` precisely when no
`TupleElement(l, _)` occurs in the body, recursively bottom-up, and
every `IndexScan` surviving the pass has a live `TupleElement(l, _)` in
its body. -/
theorem convertIndexScans_exactly_dead :
    (∀ r l pat body,
       convertIndexScans (.indexScan r l pat body) =
         if opUses l body then .indexScan r l pat (convertIndexScans body)
         else .filter (.existenceCheck r pat) (convertIndexScans body)) ∧
    (∀ op, liveIndexScans (convertIndexScans op) = true) := by
  constructor
  · intro r l pat body
    rw [convertIndexScans, opUses_convertIndexScans]
  · intro op
    induction op with
    | scan r l b ih => simpa [convertIndexScans, liveIndexScans] using ih
    | indexScan r l pat b ih =>
        by_cases h : opUses l (convertIndexScans b) = true
        · simp [convertIndexScans, h, liveIndexScans, ih]
        · simp only [Bool.not_eq_true] at h
          simp [convertIndexScans, h, liveIndexScans, ih]
    | choice r l c b ih => simpa [convertIndexScans, liveIndexScans] using ih
    | indexChoice r l pat c b ih => simpa [convertIndexScans, liveIndexScans] using ih
    | filter c b ih => simpa [convertIndexScans, liveIndexScans] using ih
    | breakOp c b ih => simpa [convertIndexScans, liveIndexScans] using ih
    | project r args => simp [convertIndexScans, liveIndexScans]

/-! ## ChoiceConversion: exhaustiveness (claim C6) -/




/-- Choice conversion neither creates nor destroys `Break` operations. -/
theorem hasBreakOp_convertScans (op : Operation) :
    hasBreakOp (convertScans op) = hasBreakOp op := by
  induction op with
  | scan r l body ih =>
      cases body with
      | filter c b =>
          have hb : hasBreakOp (convertScans b) = hasBreakOp b := by
            simpa [convertScans, hasBreakOp] using ih
          by_cases h : (!hasBreakOp b && (condLevel c == (l : Int))) = true
          · simp [convertScans, h, hasBreakOp, hb]
          · simp [convertScans, h, hasBreakOp, hb]
      | scan r2 l2 b => simpa [convertScans, hasBreakOp] using ih
      | indexScan r2 l2 pat b => simpa [convertScans, hasBreakOp] using ih
      | choice r2 l2 c b => simpa [convertScans, hasBreakOp] using ih
      | indexChoice r2 l2 pat c b => simpa [convertScans, hasBreakOp] using ih
      | breakOp c b => simpa [convertScans, hasBreakOp] using ih
      | project r2 args => simp [convertScans, hasBreakOp]
  | indexScan r l pat body ih =>
      cases body with
      | filter c b =>
          have hb : hasBreakOp (convertScans b) = hasBreakOp b := by
            simpa [convertScans, hasBreakOp] using ih
          by_cases h : (!hasBreakOp b && (condLevel c == (l : Int))) = true
          · simp [convertScans, h, hasBreakOp, hb]
          · simp [convertScans, h, hasBreakOp, hb]
      | scan r2 l2 b => simpa [convertScans, hasBreakOp] using ih
      | indexScan r2 l2 pat2 b => simpa [convertScans, hasBreakOp] using ih
      | choice r2 l2 c b => simpa [convertScans, hasBreakOp] using ih
      | indexChoice r2 l2 pat2 c b => simpa [convertScans, hasBreakOp] using ih
      | breakOp c b => simpa [convertScans, hasBreakOp] using ih
      | project r2 args => simp [convertScans, hasBreakOp]
  | choice r l c b ih => simpa [convertScans, hasBreakOp] using ih
  | indexChoice r l pat c b ih => simpa [convertScans, hasBreakOp] using ih
  | filter c b ih => simpa [convertScans, hasBreakOp] using ih
  | breakOp c b ih => simpa [convertScans, hasBreakOp] using ih
  | project r args => simp [convertScans, hasBreakOp]

/-- Choice conversion never turns a non-filter root into a filter root. -/
theorem isFilter_convertScans (op : Operation) :
    isFilter (convertScans op) = isFilter op := by
  cases op with
  | scan r l body =>
      cases body <;> simp only [convertScans] <;> first | rfl | (split <;> rfl)
  | indexScan r l pat body =>
      cases body <;> simp only [convertScans] <;> first | rfl | (split <;> rfl)
  | choice r l c b => rfl
  | indexChoice r l pat c b => rfl
  | filter c b => rfl
  | breakOp c b => rfl
  | project r args => rfl

/-- A non-filter body never satisfies the conversion precondition. -/
theorem convertibleBody_of_not_filter (l : Nat) (op : Operation)
    (h : isFilter op = false) : convertibleBody l op = false := by
  cases op with
  | filter c b => exact absurd h (by simp [isFilter])
  | scan _ _ _ => rfl
  | indexScan _ _ _ _ => rfl
  | choice _ _ _ _ => rfl
  | indexChoice _ _ _ _ _ => rfl
  | breakOp _ _ => rfl
  | project _ _ => rfl

/-- Converting a non-filter operation yields a non-filter operation, which
therefore never satisfies the conversion precondition. -/
theorem convertibleBody_convertScans_of_not_filter (l : Nat) (op : Operation)
    (h : isFilter op = false) : convertibleBody l (convertScans op) = false := by
  refine convertibleBody_of_not_filter l _ ?_
  rw [isFilter_convertScans]
  exact h

/-- C6: choice conversion rewrites `Scan(R, l, Filter(c, body))` into
`Choice(R, l, c, body)` exactly when `body` contains no `Break` and the
condition-level analysis confirms that `c` depends on level `l`, rewrites
an `IndexScan` with a filter directly inside into the corresponding
`IndexChoice` under the same precondition, recurses into every body, and
leaves no convertible scan behind. -/
theorem convertScans_rewrite_rule :
    (∀ r l c body,
       convertScans (.scan r l (.filter c body)) =
         if (!hasBreakOp body && (condLevel c == (l : Int))) = true
         then .choice r l c (convertScans body)
         else .scan r l (.filter c (convertScans body))) ∧
    (∀ r l pat c body,
       convertScans (.indexScan r l pat (.filter c body)) =
         if (!hasBreakOp body && (condLevel c == (l : Int))) = true
         then .indexChoice r l pat c (convertScans body)
         else .indexScan r l pat (.filter c (convertScans body))) ∧
    (∀ op, noConvertible (convertScans op) = true) := by
  refine ⟨fun r l c body => rfl, fun r l pat c body => rfl, ?_⟩
  intro op
  induction op with
  | scan r l body ih =>
      cases hbody : body with
      | filter c b =>
          have hb : noConvertible (convertScans b) = true := by
            rw [hbody] at ih
            simpa [convertScans, noConvertible] using ih
          by_cases h : (!hasBreakOp b && (condLevel c == (l : Int))) = true
          · simp [convertScans, h, noConvertible, hb]
          · simp only [Bool.not_eq_true] at h
            simp [convertScans, h, noConvertible, hb, convertibleBody,
              hasBreakOp_convertScans]
      | scan r2 l2 b =>
          rw [hbody] at ih
          have hcb : convertibleBody l (convertScans (Operation.scan r2 l2 b)) = false :=
            convertibleBody_convertScans_of_not_filter l _ rfl
          simp [convertScans, noConvertible, ih, hcb]
      | indexScan r2 l2 pat b =>
          rw [hbody] at ih
          have hcb : convertibleBody l (convertScans (Operation.indexScan r2 l2 pat b)) = false :=
            convertibleBody_convertScans_of_not_filter l _ rfl
          simp [convertScans, noConvertible, ih, hcb]
      | choice r2 l2 c b =>
          rw [hbody] at ih
          simp only [convertScans, noConvertible] at ih
          simp [convertScans, noConvertible, convertibleBody, ih]
      | indexChoice r2 l2 pat c b =>
          rw [hbody] at ih
          simp only [convertScans, noConvertible] at ih
          simp [convertScans, noConvertible, convertibleBody, ih]
      | breakOp c b =>
          rw [hbody] at ih
          simp only [convertScans, noConvertible] at ih
          simp [convertScans, noConvertible, convertibleBody, ih]
      | project r2 args =>
          simp [convertScans, noConvertible, convertibleBody]
  | indexScan r l pat body ih =>
      cases hbody : body with
      | filter c b =>
          have hb : noConvertible (convertScans b) = true := by
            rw [hbody] at ih
            simpa [convertScans, noConvertible] using ih
          by_cases h : (!hasBreakOp b && (condLevel c == (l : Int))) = true
          · simp [convertScans, h, noConvertible, hb]
          · simp only [Bool.not_eq_true] at h
            simp [convertScans, h, noConvertible, hb, convertibleBody,
              hasBreakOp_convertScans]
      | scan r2 l2 b =>
          rw [hbody] at ih
          have hcb : convertibleBody l (convertScans (Operation.scan r2 l2 b)) = false :=
            convertibleBody_convertScans_of_not_filter l _ rfl
          simp [convertScans, noConvertible, ih, hcb]
      | indexScan r2 l2 pat2 b =>
          rw [hbody] at ih
          have hcb : convertibleBody l (convertScans (Operation.indexScan r2 l2 pat2 b)) = false :=
            convertibleBody_convertScans_of_not_filter l _ rfl
          simp [convertScans, noConvertible, ih, hcb]
      | choice r2 l2 c b =>
          rw [hbody] at ih
          simp only [convertScans, noConvertible] at ih
          simp [convertScans, noConvertible, convertibleBody, ih]
      | indexChoice r2 l2 pat2 c b =>
          rw [hbody] at ih
          simp only [convertScans, noConvertible] at ih
          simp [convertScans, noConvertible, convertibleBody, ih]
      | breakOp c b =>
          rw [hbody] at ih
          simp only [convertScans, noConvertible] at ih
          simp [convertScans, noConvertible, convertibleBody, ih]
      | project r2 args =>
          simp [convertScans, noConvertible, convertibleBody]
  | choice r l c b ih => simpa [convertScans, noConvertible] using ih
  | indexChoice r l pat c b ih => simpa [convertScans, noConvertible] using ih
  | filter c b ih => simpa [convertScans, noConvertible] using ih
  | breakOp c b ih => simpa [convertScans, noConvertible] using ih
  | project r args => simp [convertScans, noConvertible]

/-! ## The level analysis bounds tuple usage -/

/-- A used level is at most the expression level. -/
theorem exprUses_le_level {k : Nat} {e : Expression} (h : exprUses k e = true) :
    (k : Int) ≤ exprLevel e := by
  cases e with
  | constant v => simp [exprUses] at h
  | tupleElement l j =>
      have : l = k := by simpa [exprUses] using h
      simp [exprLevel, this]

/-- A used level is at most the pattern level. -/
theorem patUses_le_level {k : Nat} : ∀ {pat : Pattern}, patUses k pat = true →
    (k : Int) ≤ patLevel pat := by
  intro pat
  induction pat with
  | nil => intro h; simp [patUses] at h
  | cons oe rest ih =>
      intro h
      rcases (by simpa [patUses] using h : optUses k oe = true ∨ patUses k rest = true) with h1 | h1
      · cases oe with
        | none => simp [optUses] at h1
        | some e =>
            have := exprUses_le_level (by simpa [optUses] using h1)
            simp only [patLevel, optLevel]
            exact le_max_of_le_left this
      · exact le_max_of_le_right (ih (by simpa [patUses] using h1))

/-- A used level is at most the condition level. -/
theorem condUses_le_level {k : Nat} {c : Condition} (h : condUses k c = true) :
    (k : Int) ≤ condLevel c := by
  induction c with
  | conjunction a b iha ihb =>
      rcases (by simpa [condUses] using h : condUses k a = true ∨ condUses k b = true) with h1 | h1
      · exact le_max_of_le_left (iha h1)
      · exact le_max_of_le_right (ihb h1)
  | negation c ih => exact ih (by simpa [condUses] using h)
  | constraint op a b =>
      rcases (by simpa [condUses] using h : exprUses k a = true ∨ exprUses k b = true) with h1 | h1
      · exact le_max_of_le_left (exprUses_le_level h1)
      · exact le_max_of_le_right (exprUses_le_level h1)
  | existenceCheck r pat => exact patUses_le_level (by simpa [condUses] using h)
  | emptinessCheck r => simp [condUses] at h

/-! ## Well-formed conditions have a bound level -/

/-- The level of a well-formed expression is `-1` or a bound level. -/
theorem wfExpr_level {bound : List Nat} {e : Expression} (h : wfExpr bound e = true) :
    exprLevel e = -1 ∨ ∃ m ∈ bound, exprLevel e = (m : Int) := by
  cases e with
  | constant v => exact Or.inl rfl
  | tupleElement l j =>
      refine Or.inr ⟨l, ?_, rfl⟩
      simpa [wfExpr] using h

/-- The level of a well-formed pattern is `-1` or a bound level. -/
theorem wfPat_level {bound : List Nat} : ∀ {pat : Pattern}, pat.all (wfOpt bound) = true →
    patLevel pat = -1 ∨ ∃ m ∈ bound, patLevel pat = (m : Int) := by
  intro pat
  induction pat with
  | nil => intro _; exact Or.inl rfl
  | cons oe rest ih =>
      intro h
      simp only [List.all_cons, Bool.and_eq_true] at h
      have hhead : optLevel oe = -1 ∨ ∃ m ∈ bound, optLevel oe = (m : Int) := by
        cases oe with
        | none => exact Or.inl rfl
        | some e => simpa [optLevel] using wfExpr_level (by simpa [wfOpt] using h.1)
      have htail := ih h.2
      rcases max_choice (optLevel oe) (patLevel rest) with hm | hm
      · rw [patLevel, hm]; exact hhead
      · rw [patLevel, hm]; exact htail

/-- The level of a well-formed condition is `-1` or a bound level. -/
theorem wfCond_level {bound : List Nat} {c : Condition} (h : wfCond bound c = true) :
    condLevel c = -1 ∨ ∃ m ∈ bound, condLevel c = (m : Int) := by
  induction c with
  | conjunction a b iha ihb =>
      simp only [wfCond, Bool.and_eq_true] at h
      rcases max_choice (condLevel a) (condLevel b) with hm | hm
      · rw [condLevel, hm]; exact iha h.1
      · rw [condLevel, hm]; exact ihb h.2
  | negation c ih => exact ih (by simpa [wfCond] using h)
  | constraint op a b =>
      simp only [wfCond, Bool.and_eq_true] at h
      rcases max_choice (exprLevel a) (exprLevel b) with hm | hm
      · rw [condLevel, hm]; exact wfExpr_level h.1
      · rw [condLevel, hm]; exact wfExpr_level h.2
  | existenceCheck r pat => exact wfPat_level (by simpa [wfCond] using h)
  | emptinessCheck r => exact Or.inl rfl

/-! ## Level-soundness of hoisting (claim C2) -/


theorem levelSoundB_insertFilters (d : Int) (cs : List Condition) (b : Operation) :
    levelSoundB d (insertFilters cs b) =
      (cs.all (fun c => decide (condLevel c ≤ d)) && levelSoundB d b) := by
  induction cs with
  | nil => simp [insertFilters]
  | cons c cs ih =>
      show levelSoundB d (.filter c (insertFilters cs b)) = _
      simp [levelSoundB, ih, Bool.and_assoc]

/-- Conditions still pending after the hoist worker have level `-1` or the
level of one of the enclosing binders. -/
theorem hoistGo_pending (ar : String → Nat) :
    ∀ (op : Operation) (bound : List Nat), wfOp ar bound op = true →
    ∀ c ∈ (hoistGo op).1, condLevel c = -1 ∨ ∃ m ∈ bound, condLevel c = (m : Int)
  | .filter c0 b, bound, h, c, hc => by
      simp only [wfOp, Bool.and_eq_true] at h
      simp only [hoistGo, List.mem_cons] at hc
      rcases hc with rfl | hc
      · exact wfCond_level h.1
      · exact hoistGo_pending ar b bound h.2 c hc
  | .scan r l b, bound, h, c, hc => by
      simp only [wfOp, Bool.and_eq_true] at h
      simp only [hoistGo] at hc
      have hmem := List.mem_filter.mp hc
      have hne : ¬ condLevel c = (l : Int) := by
        have := hmem.2
        simp only [Bool.not_eq_true'] at this
        simpa using this
      rcases hoistGo_pending ar b (l :: bound) h.2 c hmem.1 with h1 | ⟨m, hm, he⟩
      · exact Or.inl h1
      · rcases List.mem_cons.mp hm with rfl | hm2
        · exact absurd he hne
        · exact Or.inr ⟨m, hm2, he⟩
  | .indexScan r l pat b, bound, h, c, hc => by
      simp only [wfOp, Bool.and_eq_true] at h
      simp only [hoistGo] at hc
      have hmem := List.mem_filter.mp hc
      have hne : ¬ condLevel c = (l : Int) := by
        have := hmem.2
        simp only [Bool.not_eq_true'] at this
        simpa using this
      rcases hoistGo_pending ar b (l :: bound) h.2 c hmem.1 with h1 | ⟨m, hm, he⟩
      · exact Or.inl h1
      · rcases List.mem_cons.mp hm with rfl | hm2
        · exact absurd he hne
        · exact Or.inr ⟨m, hm2, he⟩
  | .choice r l c0 b, bound, h, c, hc => by
      simp only [wfOp, Bool.and_eq_true] at h
      simp only [hoistGo] at hc
      have hmem := List.mem_filter.mp hc
      have hne : ¬ condLevel c = (l : Int) := by
        have := hmem.2
        simp only [Bool.not_eq_true'] at this
        simpa using this
      rcases hoistGo_pending ar b (l :: bound) h.2 c hmem.1 with h1 | ⟨m, hm, he⟩
      · exact Or.inl h1
      · rcases List.mem_cons.mp hm with rfl | hm2
        · exact absurd he hne
        · exact Or.inr ⟨m, hm2, he⟩
  | .indexChoice r l pat c0 b, bound, h, c, hc => by
      simp only [wfOp, Bool.and_eq_true] at h
      simp only [hoistGo] at hc
      have hmem := List.mem_filter.mp hc
      have hne : ¬ condLevel c = (l : Int) := by
        have := hmem.2
        simp only [Bool.not_eq_true'] at this
        simpa using this
      rcases hoistGo_pending ar b (l :: bound) h.2 c hmem.1 with h1 | ⟨m, hm, he⟩
      · exact Or.inl h1
      · rcases List.mem_cons.mp hm with rfl | hm2
        · exact absurd he hne
        · exact Or.inr ⟨m, hm2, he⟩
  | .breakOp c0 b, bound, h, c, hc => by
      simp only [hoistGo, List.not_mem_nil] at hc
  | .project r args, bound, h, c, hc => by
      simp only [hoistGo, List.not_mem_nil] at hc

/-- The core produced by the hoist worker is level sound at any depth that
dominates all enclosing binders. -/
theorem hoistGo_core_sound (ar : String → Nat) :
    ∀ (op : Operation) (bound : List Nat), wfOp ar bound op = true →
    ∀ d : Int, -1 ≤ d → (∀ m ∈ bound, (m : Int) ≤ d) →
    levelSoundB d ((hoistGo op).2) = true
  | .filter c0 b, bound, h, d, hd, hb => by
      simp only [wfOp, Bool.and_eq_true] at h
      simpa only [hoistGo] using hoistGo_core_sound ar b bound h.2 d hd hb
  | .scan r l b, bound, h, d, hd, hb => by
      simp only [wfOp, Bool.and_eq_true] at h
      simp only [hoistGo, levelSoundB, levelSoundB_insertFilters, Bool.and_eq_true]
      constructor
      · rw [List.all_eq_true]
        intro c hc
        have := (List.mem_filter.mp hc).2
        have heq : condLevel c = (l : Int) := by simpa using this
        simp [heq]
      · refine hoistGo_core_sound ar b (l :: bound) h.2 (l : Int) (by omega) ?_
        intro m hm
        rcases List.mem_cons.mp hm with rfl | hm2
        · exact le_refl _
        · have := List.all_eq_true.mp h.1 m hm2
          have hlt : m < l := by simpa using this
          omega
  | .indexScan r l pat b, bound, h, d, hd, hb => by
      simp only [wfOp, Bool.and_eq_true] at h
      simp only [hoistGo, levelSoundB, levelSoundB_insertFilters, Bool.and_eq_true]
      constructor
      · rw [List.all_eq_true]
        intro c hc
        have := (List.mem_filter.mp hc).2
        have heq : condLevel c = (l : Int) := by simpa using this
        simp [heq]
      · refine hoistGo_core_sound ar b (l :: bound) h.2 (l : Int) (by omega) ?_
        intro m hm
        rcases List.mem_cons.mp hm with rfl | hm2
        · exact le_refl _
        · have := List.all_eq_true.mp h.1.1.1 m hm2
          have hlt : m < l := by simpa using this
          omega
  | .choice r l c0 b, bound, h, d, hd, hb => by
      simp only [wfOp, Bool.and_eq_true] at h
      simp only [hoistGo, levelSoundB, levelSoundB_insertFilters, Bool.and_eq_true]
      constructor
      · rw [List.all_eq_true]
        intro c hc
        have := (List.mem_filter.mp hc).2
        have heq : condLevel c = (l : Int) := by simpa using this
        simp [heq]
      · refine hoistGo_core_sound ar b (l :: bound) h.2 (l : Int) (by omega) ?_
        intro m hm
        rcases List.mem_cons.mp hm with rfl | hm2
        · exact le_refl _
        · have := List.all_eq_true.mp h.1.1 m hm2
          have hlt : m < l := by simpa using this
          omega
  | .indexChoice r l pat c0 b, bound, h, d, hd, hb => by
      simp only [wfOp, Bool.and_eq_true] at h
      simp only [hoistGo, levelSoundB, levelSoundB_insertFilters, Bool.and_eq_true]
      constructor
      · rw [List.all_eq_true]
        intro c hc
        have := (List.mem_filter.mp hc).2
        have heq : condLevel c = (l : Int) := by simpa using this
        simp [heq]
      · refine hoistGo_core_sound ar b (l :: bound) h.2 (l : Int) (by omega) ?_
        intro m hm
        rcases List.mem_cons.mp hm with rfl | hm2
        · exact le_refl _
        · have := List.all_eq_true.mp h.1.1.1.1 m hm2
          have hlt : m < l := by simpa using this
          omega
  | .breakOp c0 b, bound, h, d, hd, hb => by
      simp only [wfOp, Bool.and_eq_true] at h
      simp only [hoistGo, levelSoundB, levelSoundB_insertFilters, Bool.and_eq_true]
      constructor
      · rw [List.all_eq_true]
        intro c hc
        rcases hoistGo_pending ar b bound h.2 c hc with h1 | ⟨m, hm, he⟩
        · simp [h1]
          omega
        · have := hb m hm
          simp [he]
          omega
      · exact hoistGo_core_sound ar b bound h.2 d hd hb
  | .project r args, bound, h, d, hd, hb => by
      simp [hoistGo, levelSoundB]

/-- C2: level-soundness of hoisting: in a hoisted well-formed program,
every `Filter(c, _)` sitting at tuple-nesting depth `d` satisfies
`L(c) ≤ d`; hoisting never relocates a filter above an operation whose
binding its condition depends on. -/
theorem hoistConditions_level_sound (ar : String → Nat) (op : Operation)
    (h : wfOp ar [] op = true) : levelSoundB (-1) (hoistConditions op) = true := by
  unfold hoistConditions
  rw [levelSoundB_insertFilters, Bool.and_eq_true]
  constructor
  · rw [List.all_eq_true]
    intro c hc
    rcases hoistGo_pending ar op [] h c hc with h1 | ⟨m, hm, _⟩
    · simp [h1]
    · exact absurd hm (List.not_mem_nil m)
  · exact hoistGo_core_sound ar op [] h (-1) (le_refl _) (fun m hm => absurd hm (List.not_mem_nil m))



/-- Witness for C2: the concrete query is well formed and its hoisted form
is level sound at the root. -/
theorem hoistConditions_level_sound_witness :
    wfOp exArity [] exQuery = true ∧ levelSoundB (-1) (hoistConditions exQuery) = true :=
  ⟨by decide, hoistConditions_level_sound exArity exQuery (by decide)⟩

/-! ## Pattern well-formedness after MakeIndex (claim C3) -/



/-- An expression extracted by `getExpression` has level strictly below the
target binder level. -/
theorem getExpression_level {c : Condition} {l : Nat} {ke : Nat × Expression}
    (h : getExpression c l = some ke) : exprLevel ke.2 < (l : Int) := by
  cases c with
  | conjunction a b => simp [getExpression] at h
  | negation c => simp [getExpression] at h
  | existenceCheck r pat => simp [getExpression] at h
  | emptinessCheck r => simp [getExpression] at h
  | constraint op a b =>
      cases op with
      | NE => simp [getExpression] at h
      | LT => simp [getExpression] at h
      | LE => simp [getExpression] at h
      | GT => simp [getExpression] at h
      | GE => simp [getExpression] at h
      | EQ =>
          cases ha : asTupleElement a l with
          | some k =>
              simp only [getExpression, ha] at h
              split_ifs at h with hlt
              cases h
              exact hlt
          | none =>
              cases hb : asTupleElement b l with
              | some k =>
                  simp only [getExpression, ha, hb] at h
                  split_ifs at h with hlt
                  cases h
                  exact hlt
              | none =>
                  simp only [getExpression, ha, hb] at h
                  exact absurd h (by simp)

/-- `constructPattern` preserves the pattern length. -/
theorem constructPattern_length (l : Nat) : ∀ (cs : List Condition) (pat : Pattern),
    (constructPattern l pat cs).1.length = pat.length
  | [], pat => rfl
  | c :: cs, pat => by
      cases hge : getExpression c l with
      | some ke =>
          by_cases hslot : ke.1 < pat.length ∧ pat.getD ke.1 none = none
          · simp only [constructPattern, hge, if_pos hslot]
            rw [constructPattern_length l cs (pat.set ke.1 (some ke.2)), List.length_set]
          · simp only [constructPattern, hge, if_neg hslot]
            exact constructPattern_length l cs pat
      | none =>
          simp only [constructPattern, hge]
          exact constructPattern_length l cs pat

/-- `constructPattern` only writes slots whose expression level is below the
binder level. -/
theorem constructPattern_slots (l : Nat) : ∀ (cs : List Condition) (pat : Pattern),
    (∀ e : Expression, some e ∈ pat → exprLevel e < (l : Int)) →
    ∀ e : Expression, some e ∈ (constructPattern l pat cs).1 → exprLevel e < (l : Int)
  | [], pat, hp, e, he => hp e he
  | c :: cs, pat, hp, e, he => by
      cases hge : getExpression c l with
      | some ke =>
          by_cases hslot : ke.1 < pat.length ∧ pat.getD ke.1 none = none
          · simp only [constructPattern, hge, if_pos hslot] at he
            refine constructPattern_slots l cs (pat.set ke.1 (some ke.2)) ?_ e he
            intro e2 he2
            rcases List.mem_or_eq_of_mem_set he2 with h2 | h2
            · exact hp e2 h2
            · have he3 : e2 = ke.2 := by
                injection h2
              rw [he3]
              exact getExpression_level hge
          · simp only [constructPattern, hge, if_neg hslot] at he
            exact constructPattern_slots l cs pat hp e he
      | none =>
          simp only [constructPattern, hge] at he
          exact constructPattern_slots l cs pat hp e he

/-- Filters are transparent for the pattern check. -/
theorem patternsOk_insertFilters (ar : String → Nat) (cs : List Condition) (b : Operation) :
    patternsOk ar (insertFilters cs b) = patternsOk ar b := by
  induction cs with
  | nil => rfl
  | cons c cs ih =>
      show patternsOk ar (.filter c (insertFilters cs b)) = _
      simp [patternsOk, ih]

/-- Peeling the filter prefix does not change the pattern check. -/
theorem patternsOk_peelFilters (ar : String → Nat) : ∀ b : Operation,
    patternsOk ar (peelFilters b).2 = patternsOk ar b
  | .filter c b => by
      simp only [peelFilters, patternsOk]
      exact patternsOk_peelFilters ar b
  | .scan _ _ _ => rfl
  | .indexScan _ _ _ _ => rfl
  | .choice _ _ _ _ => rfl
  | .indexChoice _ _ _ _ _ => rfl
  | .breakOp _ _ => rfl
  | .project _ _ => rfl

/-- A well-formed pattern slot is acceptable at any level above all bound
levels. -/
theorem patSlotOk_of_wfOpt {bound : List Nat} {l : Nat} {oe : Option Expression}
    (h : wfOpt bound oe = true) (hb : ∀ m ∈ bound, m < l) : patSlotOk l oe = true := by
  cases oe with
  | none => rfl
  | some e =>
      cases e with
      | constant v =>
          simp only [patSlotOk, exprLevel, decide_eq_true_eq]
          omega
      | tupleElement m j =>
          have hmem : m ∈ bound := by simpa [wfOpt, wfExpr] using h
          have := hb m hmem
          simp only [patSlotOk, exprLevel, decide_eq_true_eq]
          omega

/-- MakeIndex establishes the pattern check on every well-formed input. -/
theorem makeIndex_patternsOk (ar : String → Nat) :
    ∀ (op : Operation) (bound : List Nat), wfOp ar bound op = true →
    patternsOk ar (makeIndex ar op) = true
  | .scan r l body, bound, h => by
      simp only [wfOp, Bool.and_eq_true] at h
      have ih := makeIndex_patternsOk ar body (l :: bound) h.2
      simp only [makeIndex]
      split
      · simp only [patternsOk, Bool.and_eq_true]
        refine ⟨⟨?_, ?_⟩, ?_⟩
        · rw [constructPattern_length, List.length_replicate]
          simp
        · rw [List.all_eq_true]
          intro oe hoe
          cases oe with
          | none => rfl
          | some e =>
              have hlt := constructPattern_slots l (peelFilters (makeIndex ar body)).1
                (List.replicate (ar r) none)
                (fun e2 he2 => absurd (List.mem_replicate.mp he2).2 (by simp)) e hoe
              simp only [patSlotOk, decide_eq_true_eq]
              exact hlt
        · rw [patternsOk_insertFilters, patternsOk_peelFilters]
          exact ih
      · simpa [patternsOk] using ih
  | .indexScan r l pat body, bound, h => by
      simp only [wfOp, Bool.and_eq_true] at h
      have ih := makeIndex_patternsOk ar body (l :: bound) h.2
      simp only [makeIndex, patternsOk, Bool.and_eq_true]
      refine ⟨⟨h.1.1.2, ?_⟩, ih⟩
      rw [List.all_eq_true]
      intro oe hoe
      refine patSlotOk_of_wfOpt (List.all_eq_true.mp h.1.2 oe hoe) ?_
      intro m hm
      have := List.all_eq_true.mp h.1.1.1 m hm
      simpa using this
  | .choice r l c body, bound, h => by
      simp only [wfOp, Bool.and_eq_true] at h
      have ih := makeIndex_patternsOk ar body (l :: bound) h.2
      simpa [makeIndex, patternsOk] using ih
  | .indexChoice r l pat c body, bound, h => by
      simp only [wfOp, Bool.and_eq_true] at h
      have ih := makeIndex_patternsOk ar body (l :: bound) h.2
      simpa [makeIndex, patternsOk] using ih
  | .filter c body, bound, h => by
      simp only [wfOp, Bool.and_eq_true] at h
      have ih := makeIndex_patternsOk ar body bound h.2
      simpa [makeIndex, patternsOk] using ih
  | .breakOp c body, bound, h => by
      simp only [wfOp, Bool.and_eq_true] at h
      have ih := makeIndex_patternsOk ar body bound h.2
      simpa [makeIndex, patternsOk] using ih
  | .project r args, bound, h => by
      simp [makeIndex, patternsOk]

/-- C3: after one application of MakeIndex to a well-formed program, every
`IndexScan(R, l, pat, _)` has `|pat| = arity(R)` and every non-free slot
`pat[k]` satisfies `L(pat[k]) < l` under the expression-level analysis. -/
theorem makeIndex_pattern_wellformed (ar : String → Nat) (op : Operation)
    (h : wfOp ar [] op = true) : patternsOk ar (makeIndex ar op) = true :=
  makeIndex_patternsOk ar op [] h

/-- Witness for C3: the concrete query is well formed and its indexed form
passes the pattern check. -/
theorem makeIndex_pattern_wellformed_witness :
    wfOp exArity [] exQuery = true ∧ patternsOk exArity (makeIndex exArity exQuery) = true :=
  ⟨by decide, makeIndex_pattern_wellformed exArity exQuery (by decide)⟩

/-! ## MakeIndex eligibility and first-equality-wins (claim C9) -/

/-- `asTupleElement` recognises exactly `TupleElement(l, k)`. -/
theorem asTupleElement_eq_some {e : Expression} {l k : Nat} :
    asTupleElement e l = some k ↔ e = .tupleElement l k := by
  cases e with
  | constant v => simp [asTupleElement]
  | tupleElement l2 k2 =>
      simp only [asTupleElement]
      split_ifs with hl
      · subst hl
        simp [eq_comm]
      · simp [hl]

/-- `asTupleElement` accepts its own tuple element. -/
theorem asTupleElement_self (l k : Nat) : asTupleElement (.tupleElement l k) l = some k := by
  simp [asTupleElement]

/-- C9 component: eligibility characterization of `getExpression`: it
returns `(k, e)` exactly for an equality constraint with one side
`TupleElement(l, k)` and the other side `e` of level `< l`. -/
theorem getExpression_eq_some_iff (c : Condition) (l k : Nat) (e : Expression) :
    getExpression c l = some (k, e) ↔
      exprLevel e < (l : Int) ∧
      (c = .constraint .EQ (.tupleElement l k) e ∨
       c = .constraint .EQ e (.tupleElement l k)) := by
  cases c with
  | conjunction a b => simp [getExpression]
  | negation c => simp [getExpression]
  | existenceCheck r pat => simp [getExpression]
  | emptinessCheck r => simp [getExpression]
  | constraint op a b =>
      cases op with
      | NE => simp [getExpression]
      | LT => simp [getExpression]
      | LE => simp [getExpression]
      | GT => simp [getExpression]
      | GE => simp [getExpression]
      | EQ =>
          constructor
          · intro h
            cases ha : asTupleElement a l with
            | some k2 =>
                have ha2 : a = .tupleElement l k2 := asTupleElement_eq_some.mp ha
                simp only [getExpression, ha] at h
                split_ifs at h with hlt
                obtain ⟨rfl, rfl⟩ : k2 = k ∧ b = e := by simpa using h
                exact ⟨hlt, Or.inl (by rw [ha2])⟩
            | none =>
                cases hb : asTupleElement b l with
                | some k2 =>
                    have hb2 : b = .tupleElement l k2 := asTupleElement_eq_some.mp hb
                    simp only [getExpression, ha, hb] at h
                    split_ifs at h with hlt
                    obtain ⟨rfl, rfl⟩ : k2 = k ∧ a = e := by simpa using h
                    exact ⟨hlt, Or.inr (by rw [hb2])⟩
                | none =>
                    simp only [getExpression, ha, hb] at h
                    exact absurd h (by simp)
          · rintro ⟨hlt, hc | hc⟩
            · obtain ⟨h1, h2⟩ : a = Expression.tupleElement l k ∧ b = e := by
                have hinj := hc
                simp only [Condition.constraint.injEq] at hinj
                exact ⟨hinj.2.1, hinj.2.2⟩
              rw [h1, h2]
              simp [getExpression, asTupleElement_self, hlt]
            · obtain ⟨h1, h2⟩ : a = e ∧ b = Expression.tupleElement l k := by
                have hinj := hc
                simp only [Condition.constraint.injEq] at hinj
                exact ⟨hinj.2.1, hinj.2.2⟩
              rw [h1, h2]
              cases ha : asTupleElement e l with
              | some k2 =>
                  have ha2 : e = .tupleElement l k2 := asTupleElement_eq_some.mp ha
                  rw [ha2] at hlt
                  simp only [exprLevel] at hlt
                  omega
              | none =>
                  simp [getExpression, ha, asTupleElement_self, hlt]


/-- Dual characterization of a `constructPattern` slot: an initially filled
slot keeps its value, an initially free slot receives the first eligible
equality for it. -/
theorem constructPattern_getD (l : Nat) : ∀ (cs : List Condition) (pat : Pattern) (k : Nat),
    k < pat.length →
    ((pat.getD k none = none →
        (constructPattern l pat cs).1.getD k none = firstEligible l cs k) ∧
     (∀ v : Expression, pat.getD k none = some v →
        (constructPattern l pat cs).1.getD k none = some v))
  | [], pat, k, hk => by
      constructor
      · intro h0
        simp only [constructPattern, firstEligible, List.findSome?_nil]
        exact h0
      · intro v hv
        simp only [constructPattern]
        exact hv
  | c :: cs, pat, k, hk => by
      cases hge : getExpression c l with
      | some ke =>
          by_cases hslot : ke.1 < pat.length ∧ pat.getD ke.1 none = none
          · have hlen : k < (pat.set ke.1 (some ke.2)).length := by
              rw [List.length_set]
              exact hk
            have IH := constructPattern_getD l cs (pat.set ke.1 (some ke.2)) k hlen
            constructor
            · intro h0
              by_cases hkk : ke.1 = k
              · subst hkk
                have hset : (pat.set ke.1 (some ke.2)).getD ke.1 none = some ke.2 := by
                  simp [List.getD_eq_getElem?_getD, List.getElem?_set_self, hk]
                have hres := IH.2 ke.2 hset
                have hf : firstEligible l (c :: cs) ke.1 = some ke.2 := by
                  simp [firstEligible, List.findSome?_cons, hge]
                rw [hf]
                simpa only [constructPattern, hge, if_pos hslot] using hres
              · have hset : (pat.set ke.1 (some ke.2)).getD k none = pat.getD k none := by
                  simp [List.getD_eq_getElem?_getD, List.getElem?_set_ne hkk]
                have hres := IH.1 (by rw [hset]; exact h0)
                have hf : firstEligible l (c :: cs) k = firstEligible l cs k := by
                  simp [firstEligible, List.findSome?_cons, hge, hkk]
                rw [hf]
                simpa only [constructPattern, hge, if_pos hslot] using hres
            · intro v hv
              by_cases hkk : ke.1 = k
              · subst hkk
                rw [hslot.2] at hv
                exact absurd hv (by simp)
              · have hset : (pat.set ke.1 (some ke.2)).getD k none = pat.getD k none := by
                  simp [List.getD_eq_getElem?_getD, List.getElem?_set_ne hkk]
                have hres := IH.2 v (by rw [hset]; exact hv)
                simpa only [constructPattern, hge, if_pos hslot] using hres
          · have IH := constructPattern_getD l cs pat k hk
            constructor
            · intro h0
              have hkk : ke.1 ≠ k := by
                intro hkk
                exact hslot ⟨hkk ▸ hk, hkk ▸ h0⟩
              have hf : firstEligible l (c :: cs) k = firstEligible l cs k := by
                simp [firstEligible, List.findSome?_cons, hge, hkk]
              rw [hf]
              simpa only [constructPattern, hge, if_neg hslot] using IH.1 h0
            · intro v hv
              simpa only [constructPattern, hge, if_neg hslot] using IH.2 v hv
      | none =>
          have IH := constructPattern_getD l cs pat k hk
          constructor
          · intro h0
            have hf : firstEligible l (c :: cs) k = firstEligible l cs k := by
              simp [firstEligible, List.findSome?_cons, hge]
            rw [hf]
            simpa only [constructPattern, hge] using IH.1 h0
          · intro v hv
            simpa only [constructPattern, hge] using IH.2 v hv

/-- The residual conditions are a sublist of the input conditions: residual
filters are preserved in their original relative order. -/
theorem constructPattern_residual_sublist (l : Nat) :
    ∀ (cs : List Condition) (pat : Pattern),
    ((constructPattern l pat cs).2.1).Sublist cs
  | [], pat => List.Sublist.refl []
  | c :: cs, pat => by
      cases hge : getExpression c l with
      | some ke =>
          by_cases hslot : ke.1 < pat.length ∧ pat.getD ke.1 none = none
          · simp only [constructPattern, hge, if_pos hslot]
            exact (constructPattern_residual_sublist l cs (pat.set ke.1 (some ke.2))).cons c
          · simp only [constructPattern, hge, if_neg hslot]
            exact (constructPattern_residual_sublist l cs pat).cons₂ c
      | none =>
          simp only [constructPattern, hge]
          exact (constructPattern_residual_sublist l cs pat).cons₂ c


/-- Setting a free slot increments the filled count. -/
theorem filledCount_set : ∀ (pat : Pattern) (k : Nat) (e : Expression),
    k < pat.length → pat.getD k none = none →
    filledCount (pat.set k (some e)) = filledCount pat + 1
  | [], k, e, hk, _ => absurd hk (by simp)
  | oe :: pat, 0, e, _, h0 => by
      have : oe = none := by simpa using h0
      subst this
      simp [filledCount, List.countP_cons]
  | oe :: pat, k + 1, e, hk, h0 => by
      have hk2 : k < pat.length := by simpa using hk
      have h02 : pat.getD k none = none := by simpa using h0
      simp only [List.set_cons_succ, filledCount, List.countP_cons]
      have := filledCount_set pat k e hk2 h02
      simp only [filledCount] at this
      omega

/-- Condition accounting: each input condition either fills a fresh slot or
is kept as a residual, so nothing is dropped or duplicated. -/
theorem constructPattern_count (l : Nat) : ∀ (cs : List Condition) (pat : Pattern),
    (constructPattern l pat cs).2.1.length + filledCount (constructPattern l pat cs).1 =
      cs.length + filledCount pat
  | [], pat => by simp [constructPattern]
  | c :: cs, pat => by
      cases hge : getExpression c l with
      | some ke =>
          by_cases hslot : ke.1 < pat.length ∧ pat.getD ke.1 none = none
          · simp only [constructPattern, hge, if_pos hslot]
            have := constructPattern_count l cs (pat.set ke.1 (some ke.2))
            rw [this, filledCount_set pat ke.1 ke.2 hslot.1 hslot.2]
            simp
            omega
          · simp only [constructPattern, hge, if_neg hslot, List.length_cons]
            have := constructPattern_count l cs pat
            omega
      | none =>
          simp only [constructPattern, hge, List.length_cons]
          have := constructPattern_count l cs pat
          omega

/-- C9: index eligibility and first-equality-wins: a condition contributes
to the pattern only as an equality with exactly one side
`TupleElement(l, k)` and other side of level `< l`; for each slot the
first eligible equality in source order supplies the value; residuals
keep their original relative order; and the residual count plus newly
filled slots account exactly for the input conditions. -/
theorem makeIndex_first_equality_wins :
    (∀ (c : Condition) (l k : Nat) (e : Expression),
       getExpression c l = some (k, e) ↔
         exprLevel e < (l : Int) ∧
         (c = .constraint .EQ (.tupleElement l k) e ∨
          c = .constraint .EQ e (.tupleElement l k))) ∧
    (∀ (l n : Nat) (conds : List Condition) (k : Nat), k < n →
       (constructPattern l (List.replicate n none) conds).1.getD k none =
         firstEligible l conds k) ∧
    (∀ (l : Nat) (conds : List Condition) (pat : Pattern),
       ((constructPattern l pat conds).2.1).Sublist conds) ∧
    (∀ (l : Nat) (conds : List Condition) (pat : Pattern),
       (constructPattern l pat conds).2.1.length +
         filledCount (constructPattern l pat conds).1 =
       conds.length + filledCount pat) := by
  refine ⟨getExpression_eq_some_iff, ?_, constructPattern_residual_sublist,
    constructPattern_count⟩
  intro l n conds k hk
  have hlen : k < (List.replicate n (none : Option Expression)).length := by
    simpa using hk
  refine (constructPattern_getD l conds (List.replicate n none) k hlen).1 ?_
  simp [List.getD_eq_getElem?_getD, List.getElem?_replicate, hk]

/-- Witness for C9: with two eligible equalities for slot 0, the first in
source order supplies the pattern value. -/
theorem makeIndex_first_equality_wins_witness :
    (constructPattern 0 (List.replicate 3 none)
      [.constraint .EQ (.tupleElement 0 0) (.constant 5),
       .constraint .EQ (.tupleElement 0 0) (.constant 7)]).1.getD 0 none =
    firstEligible 0
      [.constraint .EQ (.tupleElement 0 0) (.constant 5),
       .constraint .EQ (.tupleElement 0 0) (.constant 7)] 0 :=
  makeIndex_first_equality_wins.2.1 0 3
    [.constraint .EQ (.tupleElement 0 0) (.constant 5),
     .constraint .EQ (.tupleElement 0 0) (.constant 7)] 0 (by decide)

/-! ## Evaluation helper lemmas (towards claim C1) -/

theorem evalOp_insertFilters (db : Db) (env : Env) (cs : List Condition) (b : Operation) :
    evalOp db env (insertFilters cs b) =
      if cs.all (evalCond db env) then evalOp db env b else (∅, false) := by
  induction cs with
  | nil => simp [insertFilters]
  | cons c cs ih =>
      show evalOp db env (.filter c (insertFilters cs b)) = _
      by_cases hc : evalCond db env c = true
      · simp [evalOp, hc, ih]
      · simp only [Bool.not_eq_true] at hc
        simp [evalOp, hc]

theorem scanRows_congr {f g : Tuple → Finset Fact × Bool} :
    ∀ {ts : List Tuple}, (∀ t ∈ ts, f t = g t) → scanRows f ts = scanRows g ts := by
  intro ts
  induction ts with
  | nil => intro _; rfl
  | cons t ts ih =>
      intro h
      simp only [scanRows, h t (by simp)]
      rw [ih (fun u hu => h u (by simp [hu]))]

theorem scanRows_all_empty {f : Tuple → Finset Fact × Bool} :
    ∀ {ts : List Tuple}, (∀ t ∈ ts, f t = (∅, false)) → scanRows f ts = ∅ := by
  intro ts
  induction ts with
  | nil => intro _; rfl
  | cons t ts ih =>
      intro h
      simp only [scanRows, h t (by simp)]
      simp [ih (fun u hu => h u (by simp [hu]))]

theorem scanRows_const {p : Finset Fact × Bool} {f : Tuple → Finset Fact × Bool} :
    ∀ {ts : List Tuple}, ts ≠ [] → (∀ t ∈ ts, f t = p) → scanRows f ts = p.1 := by
  intro ts
  induction ts with
  | nil => intro h; exact absurd rfl h
  | cons t ts ih =>
      intro _ h
      simp only [scanRows, h t (by simp)]
      cases hb : p.2
      · simp only [Bool.false_eq_true, if_false]
        cases hts : ts with
        | nil => simp [hts, scanRows]
        | cons u us =>
            rw [← hts, ih (by simp [hts]) (fun u hu => h u (by simp [hu]))]
            simp
      · simp

theorem scanRows_select {m : Tuple → Bool} {f g : Tuple → Finset Fact × Bool} :
    ∀ {ts : List Tuple}, (∀ t ∈ ts, f t = if m t then g t else (∅, false)) →
    scanRows f ts = scanRows g (ts.filter m) := by
  intro ts
  induction ts with
  | nil => intro _; rfl
  | cons t ts ih =>
      intro h
      by_cases hm : m t = true
      · have hf : f t = g t := by
          rw [h t (by simp), hm]
          simp
        rw [List.filter_cons_of_pos hm]
        simp only [scanRows, hf]
        rw [ih (fun u hu => h u (by simp [hu]))]
      · simp only [Bool.not_eq_true] at hm
        have hf : f t = (∅, false) := by
          rw [h t (by simp), hm]
          simp
        rw [List.filter_cons_of_neg (by simp [hm])]
        simp only [scanRows, hf]
        simp only [Bool.false_eq_true, if_false, Finset.empty_union]
        exact ih (fun u hu => h u (by simp [hu]))

/-! ## Agreement lemmas: evaluation depends only on used levels -/

theorem evalExpr_congr {env env2 : Env} : ∀ {e : Expression},
    (∀ j, exprUses j e = true → env j = env2 j) → evalExpr env e = evalExpr env2 e
  | .constant v, _ => rfl
  | .tupleElement l k, h => by
      have := h l (by simp [exprUses])
      simp [evalExpr, this]

theorem matchTuple_congr {env env2 : Env} : ∀ {pat : Pattern} {t : Tuple},
    (∀ j, patUses j pat = true → env j = env2 j) →
    matchTuple env pat t = matchTuple env2 pat t := by
  intro pat
  induction pat with
  | nil => intro t _; rfl
  | cons oe pat ih =>
      intro t h
      have htail : ∀ j, patUses j pat = true → env j = env2 j := by
        intro j hj
        exact h j (by simp [patUses] at hj ⊢; exact Or.inr hj)
      cases oe with
      | none => simp only [matchTuple]; exact ih htail
      | some e =>
          have he : evalExpr env e = evalExpr env2 e := by
            refine evalExpr_congr ?_
            intro j hj
            exact h j (by simp [patUses, optUses, hj])
          simp only [matchTuple, he]
          rw [ih htail]

theorem evalCond_congr (db : Db) {env env2 : Env} : ∀ {c : Condition},
    (∀ j, condUses j c = true → env j = env2 j) →
    evalCond db env c = evalCond db env2 c := by
  intro c
  induction c with
  | conjunction a b iha ihb =>
      intro h
      have ha := iha (fun j hj => h j (by simp [condUses, hj]))
      have hb := ihb (fun j hj => h j (by simp [condUses, hj]))
      simp [evalCond, ha, hb]
  | negation c ih =>
      intro h
      have hc := ih (fun j hj => h j (by simp [condUses, hj]))
      simp [evalCond, hc]
  | constraint op a b =>
      intro h
      have ha : evalExpr env a = evalExpr env2 a :=
        evalExpr_congr (fun j hj => h j (by simp [condUses, hj]))
      have hb : evalExpr env b = evalExpr env2 b :=
        evalExpr_congr (fun j hj => h j (by simp [condUses, hj]))
      simp [evalCond, ha, hb]
  | existenceCheck r pat =>
      intro h
      have : ∀ t, matchTuple env pat t = matchTuple env2 pat t := by
        intro t
        exact matchTuple_congr (fun j hj => h j (by simp [condUses, hj]))
      simp only [evalCond]
      congr 1
      funext t
      exact this t
  | emptinessCheck r => intro _; rfl

theorem updEnv_self (env : Env) (l : Nat) (t : Tuple) : updEnv env l t l = t := by
  simp [updEnv]

theorem updEnv_ne (env : Env) {l j : Nat} (t : Tuple) (h : j ≠ l) : updEnv env l t j = env j := by
  simp [updEnv, h]

/-- A condition that does not use level `l` ignores a rebinding of `l`. -/
theorem evalCond_updEnv (db : Db) (env : Env) {c : Condition} {l : Nat}
    (h : condUses l c = false) (t : Tuple) :
    evalCond db (updEnv env l t) c = evalCond db env c := by
  refine evalCond_congr db ?_
  intro j hj
  refine updEnv_ne env t ?_
  intro hji
  subst hji
  rw [h] at hj
  exact absurd hj (by simp)

/-- A well-formed condition pending below a binder at level `l` has level
strictly below `l`, hence does not use `l`. -/
theorem condUses_false_of_level_lt {c : Condition} {l : Nat}
    (h : condLevel c < (l : Int)) : condUses l c = false := by
  cases hu : condUses l c
  · rfl
  · have := condUses_le_level hu
    omega

theorem evalOp_congr (db : Db) : ∀ {op : Operation} {env env2 : Env},
    (∀ j, opUses j op = true → env j = env2 j) →
    evalOp db env op = evalOp db env2 op
  | .scan r l body, env, env2, h => by
      simp only [evalOp]
      refine congrArg (fun s => (s, false)) (scanRows_congr ?_)
      intro t _
      refine evalOp_congr db ?_
      intro j hj
      by_cases hjl : j = l
      · subst hjl; simp [updEnv]
      · rw [updEnv_ne env t hjl, updEnv_ne env2 t hjl]
        exact h j (by simp [opUses, hj])
  | .indexScan r l pat body, env, env2, h => by
      have hpat : ∀ t, matchTuple env pat t = matchTuple env2 pat t := by
        intro t
        exact matchTuple_congr (fun j hj => h j (by simp [opUses, hj]))
      simp only [evalOp]
      have hrows : (db r).filter (fun t => matchTuple env pat t) =
          (db r).filter (fun t => matchTuple env2 pat t) := by
        congr 1
        funext t
        exact hpat t
      rw [hrows]
      refine congrArg (fun s => (s, false)) (scanRows_congr ?_)
      intro t _
      refine evalOp_congr db ?_
      intro j hj
      by_cases hjl : j = l
      · subst hjl; simp [updEnv]
      · rw [updEnv_ne env t hjl, updEnv_ne env2 t hjl]
        exact h j (by simp [opUses, hj])
  | .choice r l c body, env, env2, h => by
      have hcnd : ∀ t, evalCond db (updEnv env l t) c = evalCond db (updEnv env2 l t) c := by
        intro t
        refine evalCond_congr db ?_
        intro j hj
        by_cases hjl : j = l
        · subst hjl; simp [updEnv]
        · rw [updEnv_ne env t hjl, updEnv_ne env2 t hjl]
          exact h j (by simp [opUses, hj])
      have hbody : ∀ t, evalOp db (updEnv env l t) body = evalOp db (updEnv env2 l t) body := by
        intro t
        refine evalOp_congr db ?_
        intro j hj
        by_cases hjl : j = l
        · subst hjl; simp [updEnv]
        · rw [updEnv_ne env t hjl, updEnv_ne env2 t hjl]
          exact h j (by simp [opUses, hj])
      simp only [evalOp]
      have hfind : (db r).find? (fun t => evalCond db (updEnv env l t) c) =
          (db r).find? (fun t => evalCond db (updEnv env2 l t) c) := by
        congr 1
        funext t
        exact hcnd t
      rw [hfind]
      cases (db r).find? (fun t => evalCond db (updEnv env2 l t) c) with
      | none => rfl
      | some t => simp [hbody t]
  | .indexChoice r l pat c body, env, env2, h => by
      have hsel : ∀ t, (matchTuple env pat t && evalCond db (updEnv env l t) c) =
          (matchTuple env2 pat t && evalCond db (updEnv env2 l t) c) := by
        intro t
        have hm : matchTuple env pat t = matchTuple env2 pat t :=
          matchTuple_congr (fun j hj => h j (by simp [opUses, hj]))
        have hc : evalCond db (updEnv env l t) c = evalCond db (updEnv env2 l t) c := by
          refine evalCond_congr db ?_
          intro j hj
          by_cases hjl : j = l
          · subst hjl; simp [updEnv]
          · rw [updEnv_ne env t hjl, updEnv_ne env2 t hjl]
            exact h j (by simp [opUses, hj])
        rw [hm, hc]
      have hbody : ∀ t, evalOp db (updEnv env l t) body = evalOp db (updEnv env2 l t) body := by
        intro t
        refine evalOp_congr db ?_
        intro j hj
        by_cases hjl : j = l
        · subst hjl; simp [updEnv]
        · rw [updEnv_ne env t hjl, updEnv_ne env2 t hjl]
          exact h j (by simp [opUses, hj])
      simp only [evalOp]
      have hfind : (db r).find? (fun t => matchTuple env pat t && evalCond db (updEnv env l t) c) =
          (db r).find? (fun t => matchTuple env2 pat t && evalCond db (updEnv env2 l t) c) := by
        congr 1
        funext t
        exact hsel t
      rw [hfind]
      cases (db r).find? (fun t => matchTuple env2 pat t && evalCond db (updEnv env2 l t) c) with
      | none => rfl
      | some t => simp [hbody t]
  | .filter c body, env, env2, h => by
      have hc : evalCond db env c = evalCond db env2 c :=
        evalCond_congr db (fun j hj => h j (by simp [opUses, hj]))
      have hb : evalOp db env body = evalOp db env2 body :=
        evalOp_congr db (fun j hj => h j (by simp [opUses, hj]))
      simp [evalOp, hc, hb]
  | .breakOp c body, env, env2, h => by
      have hc : evalCond db env c = evalCond db env2 c :=
        evalCond_congr db (fun j hj => h j (by simp [opUses, hj]))
      have hb : evalOp db env body = evalOp db env2 body :=
        evalOp_congr db (fun j hj => h j (by simp [opUses, hj]))
      simp [evalOp, hc, hb]
  | .project r args, env, env2, h => by
      simp only [evalOp]
      have : args.map (evalExpr env) = args.map (evalExpr env2) := by
        refine List.map_congr_left ?_
        intro e he
        refine evalExpr_congr ?_
        intro j hj
        refine h j ?_
        simp only [opUses, List.any_eq_true]
        exact ⟨e, he, hj⟩
      rw [this]

/-- An operation that does not use level `l` ignores a rebinding of `l`. -/
theorem evalOp_updEnv (db : Db) (env : Env) {op : Operation} {l : Nat}
    (h : opUses l op = false) (t : Tuple) :
    evalOp db (updEnv env l t) op = evalOp db env op := by
  refine evalOp_congr db ?_
  intro j hj
  refine updEnv_ne env t ?_
  intro hji
  subst hji
  rw [h] at hj
  exact absurd hj (by simp)

/-- A break-free operation never signals a break. -/
theorem evalOp_flag_false (db : Db) : ∀ {op : Operation} {env : Env},
    hasBreakOp op = false → (evalOp db env op).2 = false
  | .scan _ _ _, _, _ => rfl
  | .indexScan _ _ _ _, _, _ => rfl
  | .choice r l c body, env, _ => by
      simp only [evalOp]
      cases (db r).find? (fun t => evalCond db (updEnv env l t) c) with
      | none => rfl
      | some t => rfl
  | .indexChoice r l pat c body, env, _ => by
      simp only [evalOp]
      cases (db r).find? (fun t => matchTuple env pat t && evalCond db (updEnv env l t) c) with
      | none => rfl
      | some t => rfl
  | .filter c body, env, h => by
      simp only [evalOp]
      by_cases hc : evalCond db env c = true
      · simp only [hc, if_true]
        exact evalOp_flag_false db (by simpa [hasBreakOp] using h)
      · simp only [Bool.not_eq_true] at hc
        simp [hc]
  | .breakOp c body, env, h => by simp [hasBreakOp] at h
  | .project _ _, _, _ => rfl

/-! ## Semantic preservation of HoistConditions -/

theorem all_partition (q f : α → Bool) : ∀ xs : List α,
    xs.all f = ((xs.filter q).all f && (xs.filter (fun a => !q a)).all f)
  | [] => rfl
  | x :: xs => by
      by_cases hq : q x = true
      · simp only [List.filter_cons, hq, if_true, Bool.not_true, Bool.false_eq_true, if_false,
          List.all_cons, all_partition q f xs, Bool.and_assoc]
      · simp only [Bool.not_eq_true] at hq
        simp only [List.filter_cons, hq, Bool.false_eq_true, if_false, Bool.not_false, if_true,
          List.all_cons, all_partition q f xs]
        cases f x <;> cases (xs.filter q).all f <;> simp

theorem all_congr_mem {f g : α → Bool} : ∀ {xs : List α},
    (∀ x ∈ xs, f x = g x) → xs.all f = xs.all g := by
  intro xs
  induction xs with
  | nil => intro _; rfl
  | cons x xs ih =>
      intro h
      simp [List.all_cons, h x (by simp), ih (fun u hu => h u (by simp [hu]))]

/-- Conditions pending at a binder whose level dominates all bound levels
have strictly smaller level. -/
theorem pending_level_lt {ar : String → Nat} {bound : List Nat} {op : Operation}
    (h : wfOp ar bound op = true) {l : Nat} (hb : bound.all (fun k => k < l) = true) :
    ∀ c ∈ (hoistGo op).1, condLevel c < (l : Int) := by
  intro c hc
  rcases hoistGo_pending ar op bound h c hc with h1 | ⟨m, hm, he⟩
  · rw [h1]
    omega
  · have := List.all_eq_true.mp hb m hm
    have hlt : m < l := by simpa using this
    rw [he]
    omega

/-- The hoist worker preserves evaluation: the pending conditions wrapped
around the transformed core evaluate the program unchanged. -/
theorem hoistGo_preserves (ar : String → Nat) (db : Db) :
    ∀ (op : Operation) (bound : List Nat), wfOp ar bound op = true → ∀ env : Env,
    evalOp db env (insertFilters (hoistGo op).1 (hoistGo op).2) = evalOp db env op
  | .filter c body, bound, h, env => by
      simp only [wfOp, Bool.and_eq_true] at h
      have IH := hoistGo_preserves ar db body bound h.2 env
      rw [evalOp_insertFilters] at IH
      simp only [hoistGo]
      rw [evalOp_insertFilters]
      simp only [List.all_cons]
      by_cases hc : evalCond db env c = true
      · simp only [hc, Bool.true_and]
        rw [IH]
        simp [evalOp, hc]
      · simp only [Bool.not_eq_true] at hc
        simp [evalOp, hc]
  | .scan r l body, bound, h, env => by
      have hwf := h
      simp only [wfOp, Bool.and_eq_true] at h
      have hupuse : ∀ c ∈ (hoistGo (Operation.scan r l body)).1, condUses l c = false :=
        fun c hc => condUses_false_of_level_lt (pending_level_lt hwf h.1 c hc)
      have hIH : ∀ t : Tuple, evalOp db (updEnv env l t) body =
          if (hoistGo body).1.all (evalCond db (updEnv env l t)) then
            evalOp db (updEnv env l t) (hoistGo body).2 else (∅, false) := by
        intro t
        rw [← hoistGo_preserves ar db body (l :: bound) h.2 (updEnv env l t),
          evalOp_insertFilters]
      have hupconst : ∀ t : Tuple,
          ((hoistGo body).1.filter (fun c => !(condLevel c == (l : Int)))).all
            (evalCond db (updEnv env l t)) =
          ((hoistGo body).1.filter (fun c => !(condLevel c == (l : Int)))).all
            (evalCond db env) := by
        intro t
        refine all_congr_mem ?_
        intro c hc
        exact evalCond_updEnv db env (hupuse c (by simpa [hoistGo] using hc)) t
      simp only [hoistGo]
      rw [evalOp_insertFilters]
      by_cases hall : ((hoistGo body).1.filter (fun c => !(condLevel c == (l : Int)))).all
          (evalCond db env) = true
      · rw [if_pos hall]
        simp only [evalOp]
        refine congrArg (fun s => (s, false)) (scanRows_congr ?_)
        intro t _
        rw [evalOp_insertFilters, hIH t,
          all_partition (fun c => condLevel c == (l : Int)) (evalCond db (updEnv env l t)) (hoistGo body).1,
          hupconst t, hall, Bool.and_true]
      · rw [if_neg hall]
        simp only [Bool.not_eq_true] at hall
        simp only [evalOp]
        have : scanRows (fun t => evalOp db (updEnv env l t) body) (db r) = ∅ := by
          refine scanRows_all_empty ?_
          intro t _
          rw [hIH t,
            all_partition (fun c => condLevel c == (l : Int)) (evalCond db (updEnv env l t)) (hoistGo body).1,
            hupconst t, hall, Bool.and_false]
          simp
        rw [this]
  | .indexScan r l pat body, bound, h, env => by
      have hwf := h
      simp only [wfOp, Bool.and_eq_true] at h
      have hupuse : ∀ c ∈ (hoistGo (Operation.indexScan r l pat body)).1, condUses l c = false :=
        fun c hc => condUses_false_of_level_lt (pending_level_lt hwf h.1.1.1 c hc)
      have hIH : ∀ t : Tuple, evalOp db (updEnv env l t) body =
          if (hoistGo body).1.all (evalCond db (updEnv env l t)) then
            evalOp db (updEnv env l t) (hoistGo body).2 else (∅, false) := by
        intro t
        rw [← hoistGo_preserves ar db body (l :: bound) h.2 (updEnv env l t),
          evalOp_insertFilters]
      have hupconst : ∀ t : Tuple,
          ((hoistGo body).1.filter (fun c => !(condLevel c == (l : Int)))).all
            (evalCond db (updEnv env l t)) =
          ((hoistGo body).1.filter (fun c => !(condLevel c == (l : Int)))).all
            (evalCond db env) := by
        intro t
        refine all_congr_mem ?_
        intro c hc
        exact evalCond_updEnv db env (hupuse c (by simpa [hoistGo] using hc)) t
      simp only [hoistGo]
      rw [evalOp_insertFilters]
      by_cases hall : ((hoistGo body).1.filter (fun c => !(condLevel c == (l : Int)))).all
          (evalCond db env) = true
      · rw [if_pos hall]
        simp only [evalOp]
        refine congrArg (fun s => (s, false)) (scanRows_congr ?_)
        intro t _
        rw [evalOp_insertFilters, hIH t,
          all_partition (fun c => condLevel c == (l : Int)) (evalCond db (updEnv env l t)) (hoistGo body).1,
          hupconst t, hall, Bool.and_true]
      · rw [if_neg hall]
        simp only [Bool.not_eq_true] at hall
        simp only [evalOp]
        have : scanRows (fun t => evalOp db (updEnv env l t) body)
            ((db r).filter (fun t => matchTuple env pat t)) = ∅ := by
          refine scanRows_all_empty ?_
          intro t _
          rw [hIH t,
            all_partition (fun c => condLevel c == (l : Int)) (evalCond db (updEnv env l t)) (hoistGo body).1,
            hupconst t, hall, Bool.and_false]
          simp
        rw [this]
  | .choice r l c0 body, bound, h, env => by
      have hwf := h
      simp only [wfOp, Bool.and_eq_true] at h
      have hupuse : ∀ c ∈ (hoistGo (Operation.choice r l c0 body)).1, condUses l c = false :=
        fun c hc => condUses_false_of_level_lt (pending_level_lt hwf h.1.1 c hc)
      have hIH : ∀ t : Tuple, evalOp db (updEnv env l t) body =
          if (hoistGo body).1.all (evalCond db (updEnv env l t)) then
            evalOp db (updEnv env l t) (hoistGo body).2 else (∅, false) := by
        intro t
        rw [← hoistGo_preserves ar db body (l :: bound) h.2 (updEnv env l t),
          evalOp_insertFilters]
      have hupconst : ∀ t : Tuple,
          ((hoistGo body).1.filter (fun c => !(condLevel c == (l : Int)))).all
            (evalCond db (updEnv env l t)) =
          ((hoistGo body).1.filter (fun c => !(condLevel c == (l : Int)))).all
            (evalCond db env) := by
        intro t
        refine all_congr_mem ?_
        intro c hc
        exact evalCond_updEnv db env (hupuse c (by simpa [hoistGo] using hc)) t
      simp only [hoistGo]
      rw [evalOp_insertFilters]
      by_cases hall : ((hoistGo body).1.filter (fun c => !(condLevel c == (l : Int)))).all
          (evalCond db env) = true
      · rw [if_pos hall]
        simp only [evalOp]
        cases (db r).find? (fun t => evalCond db (updEnv env l t) c0) with
        | none => rfl
        | some t =>
            simp only [Prod.mk.injEq, and_true]
            rw [evalOp_insertFilters, hIH t,
              all_partition (fun c => condLevel c == (l : Int)) (evalCond db (updEnv env l t)) (hoistGo body).1,
              hupconst t, hall, Bool.and_true]
      · rw [if_neg hall]
        simp only [Bool.not_eq_true] at hall
        simp only [evalOp]
        cases (db r).find? (fun t => evalCond db (updEnv env l t) c0) with
        | none => rfl
        | some t =>
            change (∅, false) = ((evalOp db (updEnv env l t) body).1, false)
            rw [hIH t,
              all_partition (fun c => condLevel c == (l : Int)) (evalCond db (updEnv env l t)) (hoistGo body).1,
              hupconst t, hall, Bool.and_false]
            simp
  | .indexChoice r l pat c0 body, bound, h, env => by
      have hwf := h
      simp only [wfOp, Bool.and_eq_true] at h
      have hupuse : ∀ c ∈ (hoistGo (Operation.indexChoice r l pat c0 body)).1,
          condUses l c = false :=
        fun c hc => condUses_false_of_level_lt (pending_level_lt hwf h.1.1.1.1 c hc)
      have hIH : ∀ t : Tuple, evalOp db (updEnv env l t) body =
          if (hoistGo body).1.all (evalCond db (updEnv env l t)) then
            evalOp db (updEnv env l t) (hoistGo body).2 else (∅, false) := by
        intro t
        rw [← hoistGo_preserves ar db body (l :: bound) h.2 (updEnv env l t),
          evalOp_insertFilters]
      have hupconst : ∀ t : Tuple,
          ((hoistGo body).1.filter (fun c => !(condLevel c == (l : Int)))).all
            (evalCond db (updEnv env l t)) =
          ((hoistGo body).1.filter (fun c => !(condLevel c == (l : Int)))).all
            (evalCond db env) := by
        intro t
        refine all_congr_mem ?_
        intro c hc
        exact evalCond_updEnv db env (hupuse c (by simpa [hoistGo] using hc)) t
      simp only [hoistGo]
      rw [evalOp_insertFilters]
      by_cases hall : ((hoistGo body).1.filter (fun c => !(condLevel c == (l : Int)))).all
          (evalCond db env) = true
      · rw [if_pos hall]
        simp only [evalOp]
        cases (db r).find? (fun t => matchTuple env pat t && evalCond db (updEnv env l t) c0) with
        | none => rfl
        | some t =>
            simp only [Prod.mk.injEq, and_true]
            rw [evalOp_insertFilters, hIH t,
              all_partition (fun c => condLevel c == (l : Int)) (evalCond db (updEnv env l t)) (hoistGo body).1,
              hupconst t, hall, Bool.and_true]
      · rw [if_neg hall]
        simp only [Bool.not_eq_true] at hall
        simp only [evalOp]
        cases (db r).find? (fun t => matchTuple env pat t && evalCond db (updEnv env l t) c0) with
        | none => rfl
        | some t =>
            change (∅, false) = ((evalOp db (updEnv env l t) body).1, false)
            rw [hIH t,
              all_partition (fun c => condLevel c == (l : Int)) (evalCond db (updEnv env l t)) (hoistGo body).1,
              hupconst t, hall, Bool.and_false]
            simp
  | .breakOp c body, bound, h, env => by
      simp only [wfOp, Bool.and_eq_true] at h
      simp only [hoistGo, insertFilters, List.foldr_nil]
      by_cases hc : evalCond db env c = true
      · simp [evalOp, hc]
      · simp only [Bool.not_eq_true] at hc
        simp only [evalOp, hc, Bool.false_eq_true, if_false]
        exact hoistGo_preserves ar db body bound h.2 env
  | .project r args, bound, h, env => by
      simp [hoistGo, insertFilters]

/-- The hoist pass preserves evaluation on well-formed query bodies. -/
theorem hoistConditions_preserves (ar : String → Nat) (db : Db) (op : Operation)
    (h : wfOp ar [] op = true) (env : Env) :
    evalOp db env (hoistConditions op) = evalOp db env op :=
  hoistGo_preserves ar db op [] h env

/-! ## Semantic preservation of MakeIndex -/

theorem peelFilters_insert : ∀ b : Operation,
    insertFilters (peelFilters b).1 (peelFilters b).2 = b
  | .filter c b => by
      simp only [peelFilters]
      show Operation.filter c (insertFilters (peelFilters b).1 (peelFilters b).2) = _
      rw [peelFilters_insert b]
  | .scan _ _ _ => rfl
  | .indexScan _ _ _ _ => rfl
  | .choice _ _ _ _ => rfl
  | .indexChoice _ _ _ _ _ => rfl
  | .breakOp _ _ => rfl
  | .project _ _ => rfl

theorem int_beq_comm (a b : Int) : (a == b) = (b == a) := by
  by_cases h : a = b
  · subst h
    rfl
  · have hne : ¬ b = a := fun hba => h hba.symm
    rw [beq_false_of_ne h, beq_false_of_ne hne]

theorem getD_tail (t : Tuple) (k : Nat) : t.tail.getD k 0 = t.getD (k + 1) 0 := by
  cases t with
  | nil => rfl
  | cons u us => rfl

/-- Filling a free slot adds exactly one equality conjunct to the match. -/
theorem matchTuple_set (env : Env) : ∀ (pat : Pattern) (k : Nat) (e : Expression) (t : Tuple),
    k < pat.length → pat.getD k none = none →
    matchTuple env (pat.set k (some e)) t =
      (matchTuple env pat t && (evalExpr env e == t.getD k 0))
  | [], k, e, t, hk, _ => absurd hk (by simp)
  | oe :: pat, 0, e, t, _, h0 => by
      have hoe : oe = none := by simpa using h0
      subst hoe
      show matchTuple env (some e :: pat) t = _
      simp only [matchTuple]
      cases t with
      | nil => simp [Bool.and_comm]
      | cons u us => simp [Bool.and_comm]
  | oe :: pat, k + 1, e, t, hk, h0 => by
      have hk2 : k < pat.length := by simpa using hk
      have h02 : pat.getD k none = none := by simpa using h0
      have IH := matchTuple_set env pat k e t.tail hk2 h02
      have ht := getD_tail t k
      cases oe with
      | none =>
          show matchTuple env (none :: pat.set k (some e)) t = _
          simp only [matchTuple, IH, ht]
      | some e2 =>
          show matchTuple env (some e2 :: pat.set k (some e)) t = _
          simp only [matchTuple, IH, ht, Bool.and_assoc]

theorem matchTuple_replicate (env : Env) : ∀ (n : Nat) (t : Tuple),
    matchTuple env (List.replicate n none) t = true
  | 0, _ => rfl
  | n + 1, t => by
      show matchTuple env (none :: List.replicate n none) t = true
      simp only [matchTuple]
      exact matchTuple_replicate env n t.tail

/-- An index-eligible equality evaluates, under the binding of tuple `t` at
level `l`, to the pattern-slot check for `t`. -/
theorem getExpression_eval (db : Db) {c : Condition} {l k : Nat} {e : Expression}
    (h : getExpression c l = some (k, e)) (env : Env) (t : Tuple) :
    evalCond db (updEnv env l t) c = (evalExpr env e == t.getD k 0) := by
  have he : evalExpr (updEnv env l t) e = evalExpr env e := by
    have hlt := getExpression_level h
    refine evalExpr_congr ?_
    intro j hj
    refine updEnv_ne env t ?_
    intro hji
    subst hji
    have := exprUses_le_level hj
    simp only at hlt
    omega
  have hTE : evalExpr (updEnv env l t) (.tupleElement l k) = t.getD k 0 := by
    simp [evalExpr, updEnv_self]
  rcases (getExpression_eq_some_iff c l k e).mp h with ⟨hlt, hc | hc⟩
  · subst hc
    calc evalCond db (updEnv env l t) (.constraint .EQ (.tupleElement l k) e)
        = (evalExpr (updEnv env l t) (.tupleElement l k) == evalExpr (updEnv env l t) e) := rfl
      _ = (t.getD k 0 == evalExpr env e) := by rw [hTE, he]
      _ = (evalExpr env e == t.getD k 0) := int_beq_comm _ _
  · subst hc
    calc evalCond db (updEnv env l t) (.constraint .EQ e (.tupleElement l k))
        = (evalExpr (updEnv env l t) e == evalExpr (updEnv env l t) (.tupleElement l k)) := rfl
      _ = (evalExpr env e == t.getD k 0) := by rw [hTE, he]

/-- Semantic content of `constructPattern`: the pattern match plus the
residual conditions are equivalent to the original condition list. -/
theorem constructPattern_eval (db : Db) (l : Nat) (env : Env) (t : Tuple) :
    ∀ (cs : List Condition) (pat : Pattern),
    (matchTuple env (constructPattern l pat cs).1 t &&
      (constructPattern l pat cs).2.1.all (evalCond db (updEnv env l t))) =
    (matchTuple env pat t && cs.all (evalCond db (updEnv env l t)))
  | [], pat => by
      simp [constructPattern]
  | c :: cs, pat => by
      have rearr : ∀ x A R : Bool, (A && (x && R)) = (x && (A && R)) := by decide
      cases hge : getExpression c l with
      | some ke =>
          by_cases hslot : ke.1 < pat.length ∧ pat.getD ke.1 none = none
          · simp only [constructPattern, hge, if_pos hslot]
            have IH := constructPattern_eval db l env t cs (pat.set ke.1 (some ke.2))
            rw [IH, matchTuple_set env pat ke.1 ke.2 t hslot.1 hslot.2]
            have hc : evalCond db (updEnv env l t) c = (evalExpr env ke.2 == t.getD ke.1 0) :=
              getExpression_eval db (show getExpression c l = some (ke.1, ke.2) by
                rw [hge]) env t
            rw [List.all_cons, hc, Bool.and_assoc]
          · simp only [constructPattern, hge, if_neg hslot]
            have IH := constructPattern_eval db l env t cs pat
            rw [List.all_cons, List.all_cons, rearr, IH, rearr]
      | none =>
          simp only [constructPattern, hge]
          have IH := constructPattern_eval db l env t cs pat
          rw [List.all_cons, List.all_cons, rearr, IH, rearr]

/-- MakeIndex preserves evaluation unconditionally. -/
theorem makeIndex_preserves (ar : String → Nat) (db : Db) :
    ∀ (op : Operation) (env : Env), evalOp db env (makeIndex ar op) = evalOp db env op
  | .scan r l body, env => by
      have IH : ∀ env' : Env, evalOp db env' (makeIndex ar body) = evalOp db env' body :=
        fun env' => makeIndex_preserves ar db body env'
      simp only [makeIndex]
      split
      · simp only [evalOp]
        refine congrArg (fun s => (s, false)) ?_
        refine (scanRows_select ?_).symm
        intro t _
        have hft : evalOp db (updEnv env l t) body =
            if (peelFilters (makeIndex ar body)).1.all (evalCond db (updEnv env l t)) then
              evalOp db (updEnv env l t) (peelFilters (makeIndex ar body)).2 else (∅, false) := by
          rw [← evalOp_insertFilters db (updEnv env l t) (peelFilters (makeIndex ar body)).1
            (peelFilters (makeIndex ar body)).2, peelFilters_insert, IH]
        have hcond : (peelFilters (makeIndex ar body)).1.all (evalCond db (updEnv env l t)) =
            (matchTuple env (constructPattern l (List.replicate (ar r) none)
                (peelFilters (makeIndex ar body)).1).1 t &&
             (constructPattern l (List.replicate (ar r) none)
                (peelFilters (makeIndex ar body)).1).2.1.all (evalCond db (updEnv env l t))) := by
          have hce := constructPattern_eval db l env t (peelFilters (makeIndex ar body)).1
            (List.replicate (ar r) none)
          rw [matchTuple_replicate env (ar r) t, Bool.true_and] at hce
          exact hce.symm
        rw [hft, hcond, evalOp_insertFilters]
        cases hm : matchTuple env (constructPattern l (List.replicate (ar r) none)
            (peelFilters (makeIndex ar body)).1).1 t
        · simp
        · simp
      · simp only [evalOp]
        refine congrArg (fun s => (s, false)) (scanRows_congr ?_)
        intro t _
        exact IH (updEnv env l t)
  | .indexScan r l pat body, env => by
      simp only [makeIndex, evalOp]
      refine congrArg (fun s => (s, false)) (scanRows_congr ?_)
      intro t _
      exact makeIndex_preserves ar db body (updEnv env l t)
  | .choice r l c body, env => by
      simp only [makeIndex, evalOp]
      cases (db r).find? (fun t => evalCond db (updEnv env l t) c) with
      | none => rfl
      | some t => simp [makeIndex_preserves ar db body (updEnv env l t)]
  | .indexChoice r l pat c body, env => by
      simp only [makeIndex, evalOp]
      cases (db r).find? (fun t => matchTuple env pat t && evalCond db (updEnv env l t) c) with
      | none => rfl
      | some t => simp [makeIndex_preserves ar db body (updEnv env l t)]
  | .filter c body, env => by
      simp only [makeIndex, evalOp]
      by_cases hc : evalCond db env c = true
      · simp [hc, makeIndex_preserves ar db body env]
      · simp only [Bool.not_eq_true] at hc
        simp [hc]
  | .breakOp c body, env => by
      simp only [makeIndex, evalOp]
      by_cases hc : evalCond db env c = true
      · simp [hc]
      · simp only [Bool.not_eq_true] at hc
        simp [hc, makeIndex_preserves ar db body env]
  | .project r args, env => rfl

/-! ## Semantic preservation of IfConversion on break-free programs -/

theorem hasBreakOp_convertIndexScans : ∀ op : Operation,
    hasBreakOp (convertIndexScans op) = hasBreakOp op
  | .scan r l b => by simp [convertIndexScans, hasBreakOp, hasBreakOp_convertIndexScans b]
  | .indexScan r l pat b => by
      by_cases h : opUses l (convertIndexScans b) = true
      · simp [convertIndexScans, h, hasBreakOp, hasBreakOp_convertIndexScans b]
      · simp only [Bool.not_eq_true] at h
        simp [convertIndexScans, h, hasBreakOp, hasBreakOp_convertIndexScans b]
  | .choice r l c b => by simp [convertIndexScans, hasBreakOp, hasBreakOp_convertIndexScans b]
  | .indexChoice r l pat c b => by
      simp [convertIndexScans, hasBreakOp, hasBreakOp_convertIndexScans b]
  | .filter c b => by simp [convertIndexScans, hasBreakOp, hasBreakOp_convertIndexScans b]
  | .breakOp c b => by simp [convertIndexScans, hasBreakOp]
  | .project r args => rfl

theorem hasBreakOp_insertFilters (cs : List Condition) (b : Operation) :
    hasBreakOp (insertFilters cs b) = hasBreakOp b := by
  induction cs with
  | nil => rfl
  | cons c cs ih =>
      show hasBreakOp (.filter c (insertFilters cs b)) = _
      simp [hasBreakOp, ih]

theorem hasBreakOp_hoistGo : ∀ op : Operation,
    hasBreakOp ((hoistGo op).2) = hasBreakOp op
  | .filter c b => by simp [hoistGo, hasBreakOp, hasBreakOp_hoistGo b]
  | .scan r l b => by
      simp [hoistGo, hasBreakOp, hasBreakOp_insertFilters, hasBreakOp_hoistGo b]
  | .indexScan r l pat b => by
      simp [hoistGo, hasBreakOp, hasBreakOp_insertFilters, hasBreakOp_hoistGo b]
  | .choice r l c b => by
      simp [hoistGo, hasBreakOp, hasBreakOp_insertFilters, hasBreakOp_hoistGo b]
  | .indexChoice r l pat c b => by
      simp [hoistGo, hasBreakOp, hasBreakOp_insertFilters, hasBreakOp_hoistGo b]
  | .breakOp c b => by simp [hoistGo, hasBreakOp]
  | .project r args => rfl

theorem hasBreakOp_hoistConditions (op : Operation) :
    hasBreakOp (hoistConditions op) = hasBreakOp op := by
  unfold hoistConditions
  rw [hasBreakOp_insertFilters, hasBreakOp_hoistGo]

theorem hasBreakOp_peelFilters : ∀ b : Operation,
    hasBreakOp (peelFilters b).2 = hasBreakOp b
  | .filter c b => by simp [peelFilters, hasBreakOp, hasBreakOp_peelFilters b]
  | .scan _ _ _ => rfl
  | .indexScan _ _ _ _ => rfl
  | .choice _ _ _ _ => rfl
  | .indexChoice _ _ _ _ _ => rfl
  | .breakOp _ _ => rfl
  | .project _ _ => rfl

theorem hasBreakOp_makeIndex (ar : String → Nat) : ∀ op : Operation,
    hasBreakOp (makeIndex ar op) = hasBreakOp op
  | .scan r l body => by
      simp only [makeIndex]
      split
      · simp only [hasBreakOp, hasBreakOp_insertFilters, hasBreakOp_peelFilters]
        exact hasBreakOp_makeIndex ar body
      · simp only [hasBreakOp]
        exact hasBreakOp_makeIndex ar body
  | .indexScan r l pat body => by
      simp [makeIndex, hasBreakOp, hasBreakOp_makeIndex ar body]
  | .choice r l c body => by
      simp [makeIndex, hasBreakOp, hasBreakOp_makeIndex ar body]
  | .indexChoice r l pat c body => by
      simp [makeIndex, hasBreakOp, hasBreakOp_makeIndex ar body]
  | .filter c body => by
      simp [makeIndex, hasBreakOp, hasBreakOp_makeIndex ar body]
  | .breakOp c body => by simp [makeIndex, hasBreakOp]
  | .project r args => rfl

/-- If-conversion preserves evaluation on break-free operations. -/
theorem convertIndexScans_preserves (db : Db) :
    ∀ (op : Operation), hasBreakOp op = false → ∀ env : Env,
    evalOp db env (convertIndexScans op) = evalOp db env op
  | .scan r l body, h, env => by
      simp only [convertIndexScans, evalOp]
      refine congrArg (fun s => (s, false)) (scanRows_congr ?_)
      intro t _
      exact convertIndexScans_preserves db body (by simpa [hasBreakOp] using h) (updEnv env l t)
  | .indexScan r l pat body, h, env => by
      have hb : hasBreakOp body = false := by simpa [hasBreakOp] using h
      have IH : ∀ env' : Env, evalOp db env' (convertIndexScans body) = evalOp db env' body :=
        fun env' => convertIndexScans_preserves db body hb env'
      simp only [convertIndexScans]
      by_cases huse : opUses l (convertIndexScans body) = true
      · rw [if_pos huse]
        simp only [evalOp]
        refine congrArg (fun s => (s, false)) (scanRows_congr ?_)
        intro t _
        exact IH (updEnv env l t)
      · simp only [Bool.not_eq_true] at huse
        rw [if_neg (by simp [huse])]
        have hconst : ∀ t : Tuple, evalOp db (updEnv env l t) body =
            evalOp db env (convertIndexScans body) := by
          intro t
          rw [← IH (updEnv env l t)]
          exact evalOp_updEnv db env huse t
        have hflag : (evalOp db env (convertIndexScans body)).2 = false := by
          refine evalOp_flag_false db ?_
          rw [hasBreakOp_convertIndexScans]
          exact hb
        cases hrows : (db r).filter (fun t => matchTuple env pat t) with
        | nil =>
            have hex : (db r).any (fun t => matchTuple env pat t) = false := by
              cases hany : (db r).any (fun t => matchTuple env pat t)
              · rfl
              · obtain ⟨t, ht, hmt⟩ := List.any_eq_true.mp hany
                have hmem : t ∈ (db r).filter (fun t => matchTuple env pat t) :=
                  List.mem_filter.mpr ⟨ht, hmt⟩
                rw [hrows] at hmem
                exact absurd hmem (List.not_mem_nil t)
            simp only [evalOp, evalCond, hex, Bool.false_eq_true, if_false]
            rw [hrows]
            simp [scanRows]
        | cons u us =>
            have hex : (db r).any (fun t => matchTuple env pat t) = true := by
              have hu : u ∈ (db r).filter (fun t => matchTuple env pat t) := by
                rw [hrows]
                simp
              obtain ⟨hu1, hu2⟩ := List.mem_filter.mp hu
              exact List.any_eq_true.mpr ⟨u, hu1, hu2⟩
            have hL : evalOp db env (.filter (.existenceCheck r pat) (convertIndexScans body)) =
                ((evalOp db env (convertIndexScans body)).1, false) := by
              simp only [evalOp, evalCond, hex, if_true]
              exact Prod.ext rfl hflag
            have hR : evalOp db env (.indexScan r l pat body) =
                ((evalOp db env (convertIndexScans body)).1, false) := by
              simp only [evalOp]
              refine congrArg (fun s => (s, false)) ?_
              refine scanRows_const (by rw [hrows]; simp) ?_
              intro t _
              exact hconst t
            rw [hL, hR]
  | .choice r l c body, h, env => by
      have hb : hasBreakOp body = false := by simpa [hasBreakOp] using h
      simp only [convertIndexScans, evalOp]
      cases (db r).find? (fun t => evalCond db (updEnv env l t) c) with
      | none => rfl
      | some t => simp [convertIndexScans_preserves db body hb (updEnv env l t)]
  | .indexChoice r l pat c body, h, env => by
      have hb : hasBreakOp body = false := by simpa [hasBreakOp] using h
      simp only [convertIndexScans, evalOp]
      cases (db r).find? (fun t => matchTuple env pat t && evalCond db (updEnv env l t) c) with
      | none => rfl
      | some t => simp [convertIndexScans_preserves db body hb (updEnv env l t)]
  | .filter c body, h, env => by
      have hb : hasBreakOp body = false := by simpa [hasBreakOp] using h
      simp only [convertIndexScans, evalOp]
      by_cases hc : evalCond db env c = true
      · simp [hc, convertIndexScans_preserves db body hb env]
      · simp only [Bool.not_eq_true] at hc
        simp [hc]
  | .breakOp c body, h, env => by simp [hasBreakOp] at h
  | .project r args, h, env => rfl

/-! ## The pipeline and claim C1 -/

/-- The composite of the first three passes preserves evaluation of a
well-formed break-free query body. -/
theorem pipelineThree_preserves_op (ar : String → Nat) (db : Db) (op : Operation)
    (hwf : wfOp ar [] op = true) (hbf : hasBreakOp op = false) (env : Env) :
    evalOp db env (convertIndexScans (makeIndex ar (hoistConditions op))) = evalOp db env op := by
  have hb1 : hasBreakOp (hoistConditions op) = false := by
    rw [hasBreakOp_hoistConditions]
    exact hbf
  have hb2 : hasBreakOp (makeIndex ar (hoistConditions op)) = false := by
    rw [hasBreakOp_makeIndex]
    exact hb1
  rw [convertIndexScans_preserves db (makeIndex ar (hoistConditions op)) hb2 env,
    makeIndex_preserves ar db (hoistConditions op) env,
    hoistConditions_preserves ar db op hwf env]

/-- C1 (amended): for every well-formed RAM program without `Break`, the
first three passes (HoistConditions, MakeIndex, IfConversion) preserve the
relation contents. -/
theorem pipelineThree_preserves (ar : String → Nat) (db : Db) :
    ∀ P : Program, P.all (fun q => wfOp ar [] q) = true →
    P.all (fun q => !hasBreakOp q) = true →
    evalProgram db (pipelineThree ar P) = evalProgram db P
  | [], _, _ => rfl
  | q :: P, hwf, hbf => by
      simp only [List.all_cons, Bool.and_eq_true] at hwf hbf
      have hq : hasBreakOp q = false := by
        have := hwf
        cases hb : hasBreakOp q
        · rfl
        · rw [hb] at hbf
          exact absurd hbf.1 (by simp)
      show (evalOp db (fun _ => []) (convertIndexScans (makeIndex ar (hoistConditions q)))).1 ∪
          evalProgram db (pipelineThree ar P) =
        (evalOp db (fun _ => []) q).1 ∪ evalProgram db P
      rw [pipelineThree_preserves_op ar db q hwf.1 hq (fun _ => []),
        pipelineThree_preserves ar db P hwf.2 hbf.2]





/-- Counterexample for C1 as stated: the full pass sequence (ending in
ChoiceConversion) changes the relation contents of a well-formed
break-free program, and even the first three passes change the contents
of a well-formed program containing `Break`. -/
theorem pipeline_not_semantics_preserving :
    (cexChoiceProgram.all (fun q => wfOp exArity [] q) = true ∧
     cexChoiceProgram.all (fun q => !hasBreakOp q) = true ∧
     evalProgram cexChoiceDb (pipelineFour exArity cexChoiceProgram) ≠
       evalProgram cexChoiceDb cexChoiceProgram) ∧
    (cexBreakProgram.all (fun q => wfOp exArity [] q) = true ∧
     evalProgram cexBreakDb (pipelineThree exArity cexBreakProgram) ≠
       evalProgram cexBreakDb cexBreakProgram) := by
  refine ⟨⟨by decide, by decide, by decide⟩, ⟨by decide, by decide⟩⟩

/-- Witness for the amended C1: the preservation theorem applied to a
concrete well-formed break-free program. -/
theorem pipelineThree_preserves_witness :
    evalProgram cexChoiceDb (pipelineThree exArity cexChoiceProgram) =
      evalProgram cexChoiceDb cexChoiceProgram :=
  pipelineThree_preserves exArity cexChoiceDb cexChoiceProgram (by decide) (by decide)

end SouffleRam
